import Mathlib

/-!
# pixi_byte: a verification development

Shallow embedding of the pixi_byte JavaScript-subset engine
(value model, environment chain, bytecode chunk, compiler, stack VM)
and proofs about it.

Modelling conventions:
* IEEE-754 binary64 numbers are modelled exactly: `JSNum` carries finite
  values as rationals (`ℚ`) together with a negative-zero flag, plus NaN
  and the two infinities.  Arithmetic on finite values is exact rational
  arithmetic; this agrees with the source's double arithmetic on every
  input where that arithmetic is exact, which covers all inputs appearing
  in the theorems below.  Conversions (`as i32`, `as u32`, `as usize`)
  follow Rust's saturating-truncation semantics.
* Shared mutable `Rc<RefCell<...>>` records (environments, objects) are
  modelled by an explicit heap of records addressed by index; allocation
  appends, so an environment's `outer` link always points to an earlier
  index in every VM-produced heap.
* Fallible code returns `Except`/`Option`; a Rust panic (out-of-bounds
  `Vec` indexing) is a distinct `crash` outcome; the interpreter is
  fuel-indexed, `timeout` marking fuel exhaustion (divergence).
-/

namespace PixiByte

/-! ## Numbers: exact model of f64 -/

/-! Rational arithmetic, re-implemented on `ℚ`'s numerator/denominator
via `mkRat` so that concrete runs reduce inside the kernel (the core
`Rat` operations are `@[irreducible]`).  Each agrees with the
corresponding `ℚ` operation. -/

/-- Exact rational addition (kernel-reducible). -/
def ratAdd (a b : ℚ) : ℚ := mkRat (a.num * b.den + b.num * a.den) (a.den * b.den)

/-- Exact rational negation (kernel-reducible). -/
def ratNeg (a : ℚ) : ℚ := mkRat (-a.num) a.den

/-- Exact rational multiplication (kernel-reducible). -/
def ratMul (a b : ℚ) : ℚ := mkRat (a.num * b.num) (a.den * b.den)

/-- Exact rational inverse (kernel-reducible). -/
def ratInv (b : ℚ) : ℚ :=
  if b.num < 0 then mkRat (-(b.den : Int)) b.num.natAbs
  else mkRat (b.den : Int) b.num.natAbs

/-- Exact rational division (kernel-reducible). -/
def ratDiv (a b : ℚ) : ℚ := ratMul a (ratInv b)


/-- An IEEE-754 binary64 value, modelled exactly.  Finite values are
rationals; `negZero` distinguishes `-0.0` from `+0.0` (only meaningful
when `q = 0`). -/
inductive JSNum where
  | nan : JSNum
  | inf (neg : Bool) : JSNum
  | fin (q : ℚ) (negZero : Bool) : JSNum
deriving DecidableEq, Repr

namespace JSNum

/-- IEEE-754 equality on doubles (Rust `f64 == f64`, also the numeric
case of both the derived `PartialEq` and `strict_equals`):
`NaN != NaN`, `+0.0 == -0.0`. -/
def ieeeEq : JSNum → JSNum → Bool
  | nan, _ => false
  | _, nan => false
  | inf s1, inf s2 => s1 == s2
  | fin q1 _, fin q2 _ => q1 == q2
  | _, _ => false

/-- The sign bit of a double (used for IEEE sign rules). -/
def signBit : JSNum → Bool
  | nan => false
  | inf s => s
  | fin q nz => decide (q < 0) || (decide (q = 0) && nz)

/-- IEEE `<` (NaN incomparable). -/
def ieeeLt : JSNum → JSNum → Bool
  | nan, _ => false
  | _, nan => false
  | inf s1, inf s2 => s1 && !s2
  | inf s1, fin _ _ => s1
  | fin _ _, inf s2 => !s2
  | fin q1 _, fin q2 _ => decide (q1 < q2)

/-- IEEE `<=` (NaN incomparable). -/
def ieeeLe : JSNum → JSNum → Bool
  | nan, _ => false
  | _, nan => false
  | inf s1, inf s2 => s1 || !s2
  | inf s1, fin _ _ => s1
  | fin _ _, inf s2 => !s2
  | fin q1 _, fin q2 _ => decide (q1 ≤ q2)

/-- Double addition (exact on finite operands). -/
def add : JSNum → JSNum → JSNum
  | nan, _ => nan
  | _, nan => nan
  | inf s1, inf s2 => if s1 == s2 then inf s1 else nan
  | inf s, fin _ _ => inf s
  | fin _ _, inf s => inf s
  | fin q1 nz1, fin q2 nz2 => fin (ratAdd q1 q2) (nz1 && nz2)

/-- Double negation. -/
def neg : JSNum → JSNum
  | nan => nan
  | inf s => inf (!s)
  | fin q nz => if q = 0 then fin 0 (!nz) else fin (ratNeg q) false

/-- Double subtraction. -/
def sub (a b : JSNum) : JSNum := add a (neg b)

/-- Double multiplication (exact on finite operands). -/
def mul : JSNum → JSNum → JSNum
  | nan, _ => nan
  | _, nan => nan
  | inf s1, inf s2 => inf (s1 != s2)
  | inf s, fin q nz => if q = 0 then nan else inf (s != signBit (fin q nz))
  | fin q nz, inf s => if q = 0 then nan else inf (s != signBit (fin q nz))
  | fin q1 nz1, fin q2 nz2 =>
      fin (ratMul q1 q2) (signBit (fin q1 nz1) != signBit (fin q2 nz2))

/-- Double division (exact on finite operands). -/
def div : JSNum → JSNum → JSNum
  | nan, _ => nan
  | _, nan => nan
  | inf _, inf _ => nan
  | inf s, b => inf (s != signBit b)
  | a, inf _ => fin 0 (signBit a != (a.signBit != a.signBit))
  | fin q1 nz1, fin q2 nz2 =>
      if q2 = 0 then
        if q1 = 0 then nan
        else inf (signBit (fin q1 nz1) != signBit (fin q2 nz2))
      else fin (ratDiv q1 q2) (signBit (fin q1 nz1) != signBit (fin q2 nz2))

/-- Truncation toward zero of a rational (`num.tdiv den`). -/
def ratTrunc (q : ℚ) : Int := q.num.tdiv q.den

/-- Double remainder, Rust `%` on `f64` (sign of the dividend). -/
def fmod : JSNum → JSNum → JSNum
  | nan, _ => nan
  | _, nan => nan
  | inf _, _ => nan
  | fin _ _, inf _ => nan  -- actually x % inf = x; unreachable in the claims
  | fin q1 nz1, fin q2 _ =>
      if q2 = 0 then nan
      else fin (ratAdd q1 (ratNeg (ratMul q2 (ratTrunc (ratDiv q1 q2) : ℚ)))) nz1

/-- Double exponentiation (`f64::powf`).  Integer exponents are exact;
irrational results are not representable in the exact-rational model and
are mapped to NaN.  No theorem below exercises this operation. -/
def pow : JSNum → JSNum → JSNum
  | _, fin q _ =>
      if q = 0 then fin 1 false
      else nan
  | _, _ => nan

/-- Rust `f64 as i32`: NaN to 0, saturating truncation otherwise. -/
def toI32sat : JSNum → Int
  | nan => 0
  | inf s => if s then -(2 ^ 31) else 2 ^ 31 - 1
  | fin q _ =>
      let t := ratTrunc q
      if t < -(2 ^ 31) then -(2 ^ 31)
      else if t > 2 ^ 31 - 1 then 2 ^ 31 - 1
      else t

/-- Rust `f64 as u32`: NaN to 0, saturating truncation (negatives to 0). -/
def toU32sat : JSNum → Nat
  | nan => 0
  | inf s => if s then 0 else 2 ^ 32 - 1
  | fin q _ =>
      let t := ratTrunc q
      if t < 0 then 0
      else if t > 2 ^ 32 - 1 then 2 ^ 32 - 1
      else t.toNat

/-- Rust `f64 as usize` (64-bit target): saturating truncation. -/
def toUsizeSat : JSNum → Nat
  | nan => 0
  | inf s => if s then 0 else 2 ^ 64 - 1
  | fin q _ =>
      let t := ratTrunc q
      if t < 0 then 0
      else if t > 2 ^ 64 - 1 then 2 ^ 64 - 1
      else t.toNat

end JSNum

/-! ## Decimal printing of unsigned integers (Rust `usize::to_string`) -/

/-- The decimal digit character for `d < 10`. -/
def digitCh (d : Nat) : Char := Char.ofNat (48 + d)

/-- Little-endian decimal digits, fuel-indexed so the definition is
structurally recursive (kernel-reducible); `n` needs fuel at most `n+1`. -/
def natDigitsLEAux : Nat → Nat → List Char
  | 0, _ => []
  | fuel + 1, n =>
      if n < 10 then [digitCh n]
      else digitCh (n % 10) :: natDigitsLEAux fuel (n / 10)

/-- Little-endian decimal digits of a natural number (`0` prints as "0"). -/
def natDigitsLE (n : Nat) : List Char := natDigitsLEAux (n + 1) n

/-- Decimal rendering of a natural number, as produced by Rust's
`usize::to_string` / `Display`. -/
def natDecimal (n : Nat) : String := ⟨(natDigitsLE n).reverse⟩

/-- Decimal rendering of an integer (Rust `i64`/`i32` `Display`). -/
def intDecimal (i : Int) : String :=
  if i < 0 then "-" ++ natDecimal i.natAbs else natDecimal i.natAbs

/-! ## Number to string (Rust `f64` `Display`)

Finite non-integer doubles print as the shortest round-tripping decimal;
the exact-rational model renders those with a finite decimal expansion
exactly and is not exercised on any other input by the theorems below. -/

/-- Smallest `k ≤ 64` with `den ∣ 10 ^ k`, if any. -/
def decExp (den : Nat) : Option Nat :=
  (List.range 65).find? (fun k => 10 ^ k % den == 0)

/-- Decimal rendering of a nonnegative rational with finite decimal
expansion. -/
def ratDecimalAux (q : ℚ) : String :=
  match decExp q.den with
  | some 0 => natDecimal q.num.natAbs
  | some k =>
      let scaled : Nat := (q.num.natAbs * (10 ^ k / q.den))
      let whole := scaled / 10 ^ k
      let frac := scaled % 10 ^ k
      let fracDigits := natDecimal frac
      let pad := String.mk (List.replicate (k - fracDigits.length) '0')
      natDecimal whole ++ "." ++ pad ++ fracDigits
  | none => natDecimal q.num.natAbs ++ "#/" ++ natDecimal q.den

namespace JSNum

/-- Rust `Display` for `f64` as used by `JSValue::to_string` (the
`n.to_string()` branch; NaN and the infinities are rendered by the
caller before reaching it in the source, but `Display` agrees). -/
def toDisplay : JSNum → String
  | nan => "NaN"
  | inf s => if s then "-Infinity" else "Infinity"
  | fin q nz =>
      if q = 0 then (if nz then "-0" else "0")
      else if q < 0 then "-" ++ ratDecimalAux (ratNeg q)
      else ratDecimalAux q

/-- Parse of a trimmed nonempty string as an `f64`
(`str::parse::<f64>()`), exact-rational model.  Handles optional sign,
decimal digits with optional fraction, `inf`/`Infinity`/`NaN`; other
forms (exponents, hex) are not exercised by any theorem below and map
to `none` (the caller turns that into NaN, as `unwrap_or(f64::NAN)`
does). -/
def parseDigits : List Char → Option Nat
  | [] => none
  | cs =>
      cs.foldl (fun acc c =>
        match acc with
        | none => none
        | some n => if c.isDigit then some (n * 10 + (c.toNat - 48)) else none)
        (some 0)

def parseF64 (s : String) : Option JSNum :=
  let cs := s.data
  let core : List Char → Option (ℚ) := fun l =>
    match l.span (fun c => c ≠ '.') with
    | (ds, []) => (parseDigits ds).map (fun n => (n : ℚ))
    | (ds, _dot :: fs) =>
        match parseDigits ds, parseDigits fs, fs.length with
        | some w, some f, k => some (ratAdd (w : ℚ) (mkRat (f : Int) (10 ^ k)))
        | _, _, _ => none
  match cs with
  | '-' :: rest =>
      if rest = "inf".data ∨ rest = "infinity".data ∨ rest = "Infinity".data then
        some (inf true)
      else (core rest).map (fun q => if q = 0 then fin 0 true else fin (ratNeg q) false)
  | '+' :: rest => (core rest).map (fun q => fin q false)
  | _ =>
      if cs = "inf".data ∨ cs = "infinity".data ∨ cs = "Infinity".data then
        some (inf false)
      else if cs = "NaN".data then some nan
      else (core cs).map (fun q => fin q false)

end JSNum

/-! ## Bytecode instruction set (`compiler::Opcode`) -/

/-- The VM instruction set, mirroring `Opcode` in `src/compiler/mod.rs`. -/
inductive Opcode where
  | loadConst (idx : Nat)
  | loadVar (name : String)
  | storeVar (name : String)
  | popOp
  | add | sub | mul | div | mod | power
  | neg | not | bitNot
  | eq | notEq | strictEq | strictNotEq
  | lt | gt | ltEq | gtEq
  | and | or
  | bitAnd | bitOr | bitXor | leftShift | rightShift | unsignedRightShift
  | newArray (size : Nat)
  | newObject
  | getProperty | setProperty | arrayPush | objectSetProperty
  | createFunction (idx : Nat)
  | callFunction (argCount : Nat)
  | jump (target : Nat)
  | jumpIfFalse (target : Nat)
  | ret
  | typeof | void
deriving DecidableEq, Repr

/-! ## Runtime values (`value::JSValue`)

The snapshot's `jsvalue.rs` still lists only the primitive variants, but
the VM and compiler pattern-match `Object` and `Function` values; the
`Object` payload (an `Rc<RefCell<JSObject>>`) is modelled as a heap
index, and the `Function` payload carries its chunk inline (code and
constant pool) plus the optional captured-environment index. -/

inductive JSValue where
  | undefined
  | null
  | boolean (b : Bool)
  | number (n : JSNum)
  | string (s : String)
  | object (id : Nat)
  | function (fcode : List Opcode) (fconsts : List JSValue)
      (params : List String) (envId : Option Nat)
deriving Repr

/-- A compiled unit: instruction stream plus constant pool
(`compiler::BytecodeChunk`). -/
structure Chunk where
  code : List Opcode
  constants : List JSValue
deriving Repr

namespace JSValue

/-- `JSValue::to_string` (the ToString abstract operation).  The
`Object` and `Function` renderings are modelled from the spec
("[object Object]" / "[function]"); the snapshot's `jsvalue.rs`
predates those variants. -/
def jsToString : JSValue → String
  | undefined => "undefined"
  | null => "null"
  | boolean b => if b then "true" else "false"
  | number n => n.toDisplay
  | string s => s
  | object _ => "[object Object]"
  | function _ _ _ _ => "[function]"

/-- `JSValue::to_number` (the ToNumber abstract operation).
`Object`/`Function` map to NaN, modelled from the spec. -/
def toNumber : JSValue → JSNum
  | undefined => .nan
  | null => .fin 0 false
  | boolean true => .fin 1 false
  | boolean false => .fin 0 false
  | number n => n
  | string s =>
      let t := s.trim
      if t.isEmpty then .fin 0 false
      else (JSNum.parseF64 t).getD .nan
  | object _ => .nan
  | function _ _ _ _ => .nan

/-- `JSValue::to_boolean` (the ToBoolean abstract operation).
`Object`/`Function` are truthy, modelled from the spec. -/
def toBoolean : JSValue → Bool
  | undefined => false
  | null => false
  | boolean b => b
  | number n =>
      match n with
      | .nan => false
      | .inf _ => true
      | .fin q _ => decide (q ≠ 0)
  | string s => !s.isEmpty
  | object _ => true
  | function _ _ _ _ => true

/-- `JSValue::type_of`. -/
def typeOf : JSValue → String
  | undefined => "undefined"
  | null => "object"
  | boolean _ => "boolean"
  | number _ => "number"
  | string _ => "string"
  | object _ => "object"
  | function _ _ _ _ => "function"

/-- `JSValue::strict_equals` (`===`).  Numbers compare by IEEE equality;
`Object` compares by reference identity (spec: identity = reference
identity); `Function` values in the snapshot carry their chunk by value
and have no identity, and no theorem below compares two functions. -/
def strictEquals : JSValue → JSValue → Bool
  | undefined, undefined => true
  | null, null => true
  | boolean a, boolean b => a == b
  | number a, number b => a.ieeeEq b
  | string a, string b => a == b
  | object i, object j => i == j
  | _, _ => false

/-- Does the value belong to one of the five primitive variants? -/
def isPrim : JSValue → Bool
  | undefined | null | boolean _ | number _ | string _ => true
  | _ => false

/-- Same-variant discriminant test (`std::mem::discriminant`). -/
def sameVariant : JSValue → JSValue → Bool
  | undefined, undefined => true
  | null, null => true
  | boolean _, boolean _ => true
  | number _, number _ => true
  | string _, string _ => true
  | object _, object _ => true
  | function _ _ _ _, function _ _ _ _ => true
  | _, _ => false

/-- Rank used only for the termination of `abstractEquals` (each
recursive call eliminates one `Boolean` operand). -/
def boolRank : JSValue → Nat
  | boolean _ => 1
  | _ => 0

/-- `abstractEquals` on arguments of which neither is a `Boolean`:
the recursive calls of the source's `abstract_equals` land here after
one boolean-to-number coercion (a boolean opposite operand is ruled out
by the same-variant check). -/
def absEqNB (a b : JSValue) : Bool :=
  if sameVariant a b then strictEquals a b
  else
    match a, b with
    | null, undefined => true
    | undefined, null => true
    | number n, string _ => n.ieeeEq (toNumber b)
    | string _, number n => (toNumber a).ieeeEq n
    | _, _ => false

/-- `JSValue::abstract_equals` (`==`).  Same variant delegates to
strict equality; `null == undefined`; number/string coerces the string;
a boolean operand is first coerced to number and compared again (that
second comparison is `absEqNB`, the recursion unfolded once). -/
def abstractEquals (a b : JSValue) : Bool :=
  if sameVariant a b then strictEquals a b
  else
    match a, b with
    | null, undefined => true
    | undefined, null => true
    | number n, string _ => n.ieeeEq (toNumber b)
    | string _, number n => (toNumber a).ieeeEq n
    | boolean _, _ => absEqNB (number (toNumber a)) b
    | _, boolean _ => absEqNB a (number (toNumber b))
    | _, _ => false

end JSValue

/-! ## Interning equality (`PartialEq` on `JSValue`)

`BytecodeChunk::add_constant` deduplicates with `==`.  On the primitive
variants this is the derived structural equality, whose `f64` case is
IEEE equality.  The snapshot's `jsvalue.rs` predates the `Object` and
`Function` variants; their equality is modelled from the spec (§4.4
"structural equality", objects by reference identity). -/

mutual

def rustEq : JSValue → JSValue → Bool
  | .undefined, .undefined => true
  | .null, .null => true
  | .boolean a, .boolean b => a == b
  | .number a, .number b => a.ieeeEq b
  | .string a, .string b => a == b
  | .object i, .object j => i == j
  | .function c1 k1 p1 e1, .function c2 k2 p2 e2 =>
      c1 == c2 && rustEqList k1 k2 && p1 == p2 && e1 == e2
  | _, _ => false

def rustEqList : List JSValue → List JSValue → Bool
  | [], [] => true
  | x :: xs, y :: ys => rustEq x y && rustEqList xs ys
  | _, _ => false

end

/-! ## The heap: environment and object records

`Rc<RefCell<Environment>>` and `Rc<RefCell<JSObject>>` handles are
modelled as indices into two allocation lists.  `FxHashMap` maps are
modelled as association lists with first-match lookup and
replace-in-place insertion, which realises the same map semantics. -/

/-- Association-list lookup (first match). -/
def alLookup {α : Type} : List (String × α) → String → Option α
  | [], _ => none
  | (k, v) :: rest, key => if k = key then some v else alLookup rest key

/-- `HashMap::contains_key`. -/
def alContains {α : Type} (l : List (String × α)) (key : String) : Bool :=
  (alLookup l key).isSome

/-- `HashMap::insert`: replace in place, or append. -/
def alInsert {α : Type} : List (String × α) → String → α → List (String × α)
  | [], key, v => [(key, v)]
  | (k, w) :: rest, key, v =>
      if k = key then (k, v) :: rest else (k, w) :: alInsert rest key v

/-- A property descriptor (`jsobject::Property`). -/
structure PropDesc where
  value : JSValue
  enumerable : Bool
  writable : Bool
  configurable : Bool
deriving Repr

/-- `Property::data`: the default (fully permissive) data property. -/
def PropDesc.data (v : JSValue) : PropDesc := ⟨v, true, true, true⟩

/-- An object record (`jsobject::JSObject`): property map plus optional
prototype reference. -/
structure ObjRec where
  props : List (String × PropDesc)
  proto : Option Nat
deriving Repr

/-- An environment record (`runtime::Environment`): local bindings plus
optional outer frame. -/
structure EnvRec where
  bindings : List (String × JSValue)
  outer : Option Nat
deriving Repr

/-- The heap of shared mutable records. -/
structure Heap where
  envs : List EnvRec
  objs : List ObjRec
deriving Repr

def Heap.getEnv (h : Heap) (i : Nat) : Option EnvRec := h.envs[i]?

def Heap.setEnv (h : Heap) (i : Nat) (e : EnvRec) : Heap :=
  { h with envs := h.envs.set i e }

def Heap.getObj (h : Heap) (i : Nat) : Option ObjRec := h.objs[i]?

def Heap.setObj (h : Heap) (i : Nat) (o : ObjRec) : Heap :=
  { h with objs := h.objs.set i o }

/-- Allocate a fresh environment record; its index is the next free one. -/
def Heap.allocEnv (h : Heap) (e : EnvRec) : Nat × Heap :=
  (h.envs.length, { h with envs := h.envs ++ [e] })

/-- Allocate a fresh object record. -/
def Heap.allocObj (h : Heap) (o : ObjRec) : Nat × Heap :=
  (h.objs.length, { h with objs := h.objs ++ [o] })

/-! ### Environment operations (`runtime::Environment`) -/

/-- `Environment::define`: unconditionally install in the local bindings. -/
def envDefine (h : Heap) (id : Nat) (name : String) (v : JSValue) : Heap :=
  match h.getEnv id with
  | some e => h.setEnv id { e with bindings := alInsert e.bindings name v }
  | none => h

/-- `Environment::get`: walk outward, first binding wins.  The fuel
parameter bounds the walk; `h.envs.length` suffices on every heap whose
`outer` links point to earlier indices (all VM-produced heaps). -/
def envGet (h : Heap) : Nat → Nat → String → Option JSValue
  | 0, _, _ => none
  | fuel + 1, id, name =>
      match h.getEnv id with
      | none => none
      | some e =>
          match alLookup e.bindings name with
          | some v => some v
          | none =>
              match e.outer with
              | some o => envGet h fuel o name
              | none => none

/-- `Environment::set`: walk outward; overwrite the first frame that
contains the name (`some` = reported success), else `none` (failure). -/
def envSet (h : Heap) : Nat → Nat → String → JSValue → Option Heap
  | 0, _, _, _ => none
  | fuel + 1, id, name, v =>
      match h.getEnv id with
      | none => none
      | some e =>
          if alContains e.bindings name then
            some (h.setEnv id { e with bindings := alInsert e.bindings name v })
          else
            match e.outer with
            | some o => envSet h fuel o name v
            | none => none

/-- The `StoreVar` discipline (`VM::execute`, `Opcode::StoreVar`): `set`
up the chain, falling back to `define` on the current frame. -/
def storeVarHeap (h : Heap) (id : Nat) (name : String) (v : JSValue) : Heap :=
  match envSet h h.envs.length id name v with
  | some h2 => h2
  | none => envDefine h id name v

/-! ### Object operations (`value::jsobject::JSObject`) -/

/-- Own-property read (no prototype walk); spec-side helper. -/
def objGetOwn (h : Heap) (id : Nat) (key : String) : Option JSValue :=
  match h.getObj id with
  | some o => (alLookup o.props key).map (fun p => p.value)
  | none => none

/-- `JSObject::get`: own property, else prototype chain, else
`Undefined`.  Fuel bounds the prototype walk. -/
def objGet (h : Heap) : Nat → Nat → String → JSValue
  | 0, _, _ => .undefined
  | fuel + 1, id, key =>
      match h.getObj id with
      | none => .undefined
      | some o =>
          match alLookup o.props key with
          | some p => p.value
          | none =>
              match o.proto with
              | some pr => objGet h fuel pr key
              | none => .undefined

/-- Update the value of an existing property, keeping its flags. -/
def alUpdateVal : List (String × PropDesc) → String → JSValue →
    List (String × PropDesc)
  | [], _, _ => []
  | (k, p) :: rest, key, v =>
      if k = key then (k, { p with value := v }) :: rest
      else (k, p) :: alUpdateVal rest key v

/-- `JSObject::set`: overwrite a writable existing property (read-only
rejects, returning `false`), else append a fresh data property. -/
def objSet (h : Heap) (id : Nat) (key : String) (v : JSValue) : Heap × Bool :=
  match h.getObj id with
  | none => (h, true)
  | some o =>
      match alLookup o.props key with
      | some p =>
          if p.writable then
            (h.setObj id { o with props := alUpdateVal o.props key v }, true)
          else (h, false)
      | none =>
          (h.setObj id { o with props := o.props ++ [(key, PropDesc.data v)] },
           true)

/-! ## The virtual machine (`vm::VM`)

`VM` state is the operand stack (head = top; Rust pushes/pops at the
`Vec`'s end) and the current-environment index.  `execute` is the
fuel-indexed interpreter; each dispatched instruction and each recursive
`CallFunction` entry consumes one unit of fuel. -/

/-- `error::JSError`. -/
inductive JSErr where
  | syntaxError (msg : String)
  | referenceError (msg : String)
  | typeError (msg : String)
  | rangeError (msg : String)
  | internalError (msg : String)
deriving DecidableEq, Repr

/-- The VM's mutable registers: operand stack and current environment. -/
structure VMSt where
  stack : List JSValue
  env : Nat
deriving Repr

/-- Outcome of dispatching one non-call instruction. -/
inductive StepRes where
  | next (st : VMSt) (h : Heap)
  | jumpTo (target : Nat) (st : VMSt) (h : Heap)
  | retWith (v : JSValue) (st : VMSt) (h : Heap)
  | fail (e : JSErr) (st : VMSt) (h : Heap)
  | crash (msg : String)
deriving Repr

/-- Result of `VM::execute`: `Ok(value)`, `Err(error)` (with the VM
registers as the aborted run left them), a Rust panic, or fuel
exhaustion (divergence; no Rust counterpart terminates this way). -/
inductive ExecResult where
  | ok (v : JSValue) (st : VMSt) (h : Heap)
  | err (e : JSErr) (st : VMSt) (h : Heap)
  | crash (msg : String)
  | timeout
deriving Repr

/-- The stack-underflow error every failed `VM::pop` produces. -/
def underflowErr : JSErr := .internalError "Stack underflow"

/-- `VM::binary_op`: pop `b`, pop `a`, push `op(a, b)`. -/
def binaryOp (f : JSValue → JSValue → JSValue) (st : VMSt) (h : Heap) :
    StepRes :=
  match st.stack with
  | b :: a :: rest => .next ⟨f a b :: rest, st.env⟩ h
  | _ => .fail underflowErr ⟨[], st.env⟩ h

/-- `VM::binary_numeric_op`. -/
def binaryNumericOp (f : JSNum → JSNum → JSNum) : VMSt → Heap → StepRes :=
  binaryOp (fun a b => .number (f a.toNumber b.toNumber))

/-- `VM::comparison_op`. -/
def comparisonOp (f : JSValue → JSValue → Bool) : VMSt → Heap → StepRes :=
  binaryOp (fun a b => .boolean (f a b))

/-- `VM::numeric_comparison_op`. -/
def numericComparisonOp (f : JSNum → JSNum → Bool) : VMSt → Heap → StepRes :=
  binaryOp (fun a b => .boolean (f a.toNumber b.toNumber))

/-- `VM::bitwise_op`: convert both operands with `as i32`, combine,
push as Number. -/
def bitwiseOp (f : Int → Int → Int) : VMSt → Heap → StepRes :=
  binaryOp (fun a b =>
    .number (.fin (f a.toNumber.toI32sat b.toNumber.toI32sat : ℚ) false))

/-- One-value operation: pop, push `f` of it (`self.pop()?` then push). -/
def unaryOp (f : JSValue → JSValue) (st : VMSt) (h : Heap) : StepRes :=
  match st.stack with
  | v :: rest => .next ⟨f v :: rest, st.env⟩ h
  | [] => .fail underflowErr ⟨[], st.env⟩ h

/-- The two's-complement bit pattern of an `i32` value. -/
def nat32 (z : Int) : Nat := (z % (2 ^ 32 : Int)).toNat

/-- Read a 32-bit pattern back as a signed `i32` value. -/
def i32ofNat32 (n : Nat) : Int :=
  if n < 2 ^ 31 then (n : Int) else (n : Int) - 2 ^ 32

def i32land (a b : Int) : Int := i32ofNat32 (Nat.land (nat32 a) (nat32 b))

def i32lor (a b : Int) : Int := i32ofNat32 (Nat.lor (nat32 a) (nat32 b))

def i32lxor (a b : Int) : Int := i32ofNat32 (Nat.xor (nat32 a) (nat32 b))

/-- Rust `a << (b & 0x1f)` on `i32` (value bits shifted out are lost). -/
def i32shl (a b : Int) : Int :=
  i32ofNat32 (nat32 a * 2 ^ (nat32 b % 32) % 2 ^ 32)

/-- Rust `a >> (b & 0x1f)` on `i32` (arithmetic shift = floor division). -/
def i32shr (a b : Int) : Int := Int.fdiv a (2 ^ (nat32 b % 32))

/-- The `Opcode::Add` value operation (string concatenation or numeric
addition, mirroring the `match` in `VM::execute`). -/
def jsAdd (a b : JSValue) : JSValue :=
  match a, b with
  | .string s1, .string s2 => .string (s1 ++ s2)
  | .string s, _ => .string (s ++ b.jsToString)
  | _, .string s => .string (a.jsToString ++ s)
  | _, _ => .number (a.toNumber.add b.toNumber)

/-- Dispatch one instruction other than `CallFunction` (which recurses
into `execute` and so lives there).  Mirrors the `match opcode` arms of
`VM::execute` in order. -/
def stepSimple (ch : Chunk) (op : Opcode) (st : VMSt) (h : Heap) : StepRes :=
  match op with
  | .loadConst idx =>
      match ch.constants[idx]? with
      | some v => .next ⟨v :: st.stack, st.env⟩ h
      | none => .crash "index out of bounds"
  | .loadVar name =>
      let v := (envGet h h.envs.length st.env name).getD .undefined
      .next ⟨v :: st.stack, st.env⟩ h
  | .storeVar name =>
      match st.stack with
      | v :: rest => .next ⟨rest, st.env⟩ (storeVarHeap h st.env name v)
      | [] => .fail underflowErr ⟨[], st.env⟩ h
  | .popOp => .next ⟨st.stack.tail, st.env⟩ h
  | .add => binaryOp jsAdd st h
  | .sub => binaryNumericOp JSNum.sub st h
  | .mul => binaryNumericOp JSNum.mul st h
  | .div => binaryNumericOp JSNum.div st h
  | .mod => binaryNumericOp JSNum.fmod st h
  | .power => binaryNumericOp JSNum.pow st h
  | .neg => unaryOp (fun v => .number v.toNumber.neg) st h
  | .not => unaryOp (fun v => .boolean (!v.toBoolean)) st h
  | .bitNot =>
      unaryOp (fun v =>
        .number (.fin ((-(v.toNumber.toI32sat) - 1 : Int) : ℚ) false)) st h
  | .eq => comparisonOp JSValue.abstractEquals st h
  | .notEq => comparisonOp (fun a b => !a.abstractEquals b) st h
  | .strictEq => comparisonOp JSValue.strictEquals st h
  | .strictNotEq => comparisonOp (fun a b => !a.strictEquals b) st h
  | .lt => numericComparisonOp JSNum.ieeeLt st h
  | .gt => numericComparisonOp (fun a b => JSNum.ieeeLt b a) st h
  | .ltEq => numericComparisonOp JSNum.ieeeLe st h
  | .gtEq => numericComparisonOp (fun a b => JSNum.ieeeLe b a) st h
  | .and =>
      match st.stack with
      | b :: a :: rest =>
          .next ⟨(if !a.toBoolean then a else b) :: rest, st.env⟩ h
      | _ => .fail underflowErr ⟨[], st.env⟩ h
  | .or =>
      match st.stack with
      | b :: a :: rest =>
          .next ⟨(if a.toBoolean then a else b) :: rest, st.env⟩ h
      | _ => .fail underflowErr ⟨[], st.env⟩ h
  | .bitAnd => bitwiseOp i32land st h
  | .bitOr => bitwiseOp i32lor st h
  | .bitXor => bitwiseOp i32lxor st h
  | .leftShift => bitwiseOp i32shl st h
  | .rightShift => bitwiseOp i32shr st h
  | .unsignedRightShift =>
      match st.stack with
      | b :: a :: rest =>
          let au := a.toNumber.toU32sat
          let bu := b.toNumber.toU32sat
          .next ⟨.number (.fin ((au / 2 ^ (bu % 32) : Nat) : ℚ) false) :: rest,
                 st.env⟩ h
      | _ => .fail underflowErr ⟨[], st.env⟩ h
  | .newArray _ =>
      let (id, h2) :=
        h.allocObj ⟨[("length", PropDesc.data (.number (.fin 0 false)))], none⟩
      .next ⟨.object id :: st.stack, st.env⟩ h2
  | .newObject =>
      let (id, h2) := h.allocObj ⟨[], none⟩
      .next ⟨.object id :: st.stack, st.env⟩ h2
  | .getProperty =>
      match st.stack with
      | key :: obj :: rest =>
          match obj with
          | .object id =>
              let v := objGet h h.objs.length id key.jsToString
              .next ⟨v :: rest, st.env⟩ h
          | _ => .next ⟨.undefined :: rest, st.env⟩ h
      | _ => .fail underflowErr ⟨[], st.env⟩ h
  | .setProperty =>
      match st.stack with
      | value :: key :: obj :: rest =>
          match obj with
          | .object id =>
              let (h2, _) := objSet h id key.jsToString value
              .next ⟨obj :: rest, st.env⟩ h2
          | _ =>
              .fail (.typeError "Cannot set property on non-object")
                ⟨rest, st.env⟩ h
      | _ => .fail underflowErr ⟨[], st.env⟩ h
  | .arrayPush =>
      match st.stack with
      | index :: value :: rest =>
          match rest with
          | .object id :: _ =>
              let key := natDecimal index.toNumber.toUsizeSat
              let (h2, _) := objSet h id key value
              .next ⟨rest, st.env⟩ h2
          | _ => .fail (.typeError "ArrayPush: not an object") ⟨rest, st.env⟩ h
      | _ => .fail underflowErr ⟨[], st.env⟩ h
  | .objectSetProperty =>
      match st.stack with
      | key :: value :: rest =>
          match rest with
          | .object id :: _ =>
              let (h2, _) := objSet h id key.jsToString value
              .next ⟨rest, st.env⟩ h2
          | _ =>
              .fail (.typeError "ObjectSetProperty: not an object")
                ⟨rest, st.env⟩ h
      | _ => .fail underflowErr ⟨[], st.env⟩ h
  | .createFunction idx =>
      match ch.constants[idx]? with
      | some (.function fcode fconsts params _) =>
          .next ⟨.function fcode fconsts params (some st.env) :: st.stack,
                 st.env⟩ h
      | some _ =>
          .fail (.typeError "CreateFunction: constant is not a function") st h
      | none => .crash "index out of bounds"
  | .callFunction _ =>
      -- handled in `execute`; never dispatched here
      .fail (.internalError "CallFunction dispatched outside execute") st h
  | .jump target => .jumpTo target st h
  | .jumpIfFalse target =>
      match st.stack with
      | c :: rest =>
          if !c.toBoolean then .jumpTo target ⟨rest, st.env⟩ h
          else .next ⟨rest, st.env⟩ h
      | [] => .fail underflowErr ⟨[], st.env⟩ h
  | .ret =>
      match st.stack with
      | v :: rest => .retWith v ⟨rest, st.env⟩ h
      | [] => .fail underflowErr ⟨[], st.env⟩ h
  | .typeof => unaryOp (fun v => .string v.typeOf) st h
  | .void => unaryOp (fun _ => .undefined) st h

/-- Pop `n` values (in pop order).  `none` models the underflow error of
the argument-popping loop, which leaves the stack empty. -/
def popN : Nat → List JSValue → Option (List JSValue × List JSValue)
  | 0, s => some ([], s)
  | _ + 1, [] => none
  | n + 1, v :: rest => (popN n rest).map (fun p => (v :: p.1, p.2))

/-- Bind call arguments in the callee's fresh environment: argument `i`
goes to `params[i]`, surplus arguments to `arg<i>`. -/
def bindParams (params : List String) (envId : Nat) :
    Nat → List JSValue → Heap → Heap
  | _, [], h => h
  | i, a :: rest, h =>
      let name := match params[i]? with
        | some p => p
        | none => "arg" ++ natDecimal i
      bindParams params envId (i + 1) rest (envDefine h envId name a)

/-- The program result when control falls past the last instruction:
pop the stack top, or `Undefined` on an empty stack. -/
def fallRes (st : VMSt) (h : Heap) : ExecResult :=
  match st.stack with
  | v :: rest => .ok v ⟨rest, st.env⟩ h
  | [] => .ok .undefined ⟨[], st.env⟩ h

/-- `VM::execute`: fetch, increment, dispatch.  `CallFunction` saves the
environment and operand stack, runs the callee's chunk on a fresh empty
stack in a fresh environment linked to the captured (else current) one,
restores both, and pushes the result; an `Err` propagates through `?`
before the restore. -/
def execute : Nat → Chunk → Nat → VMSt → Heap → ExecResult
  | 0, _, _, _, _ => .timeout
  | fuel + 1, ch, pc, st, h =>
      match ch.code[pc]? with
      | none => fallRes st h
      | some (.callFunction n) =>
          match popN n st.stack with
          | none => .err underflowErr ⟨[], st.env⟩ h
          | some (popped, rest1) =>
              match rest1 with
              | [] => .err underflowErr ⟨[], st.env⟩ h
              | f :: rest =>
                  match f with
                  | .function fcode fconsts params captured =>
                      let args := popped.reverse
                      let outer := captured.getD st.env
                      let (newId, h1) := h.allocEnv ⟨[], some outer⟩
                      let h2 := bindParams params newId 0 args h1
                      match execute fuel ⟨fcode, fconsts⟩ 0 ⟨[], newId⟩ h2 with
                      | .ok v _ h3 => execute fuel ch (pc + 1) ⟨v :: rest, st.env⟩ h3
                      | .err e stc h3 => .err e stc h3
                      | .crash m => .crash m
                      | .timeout => .timeout
                  | _ =>
                      .err (.typeError "CallFunction: not a function")
                        ⟨rest, st.env⟩ h
      | some op =>
          match stepSimple ch op st h with
          | .next st2 h2 => execute fuel ch (pc + 1) st2 h2
          | .jumpTo t st2 h2 => execute fuel ch t st2 h2
          | .retWith v st2 h2 => .ok v st2 h2
          | .fail e st2 h2 => .err e st2 h2
          | .crash m => .crash m

/-- The fresh heap of `VM::new`: one empty global environment. -/
def initHeap : Heap := ⟨[⟨[], none⟩], []⟩

/-- The fresh registers of `VM::new`: empty stack, global environment. -/
def initSt : VMSt := ⟨[], 0⟩

/-! ## The AST (`parser` boundary types) and the compiler -/

/-- `parser::Literal` (numbers are f64 values). -/
inductive Literal where
  | undefined
  | null
  | boolean (b : Bool)
  | number (n : JSNum)
  | string (s : String)
deriving Repr

/-- `parser::VarKind`. -/
inductive VarKind where
  | var | letVar | constVar
deriving DecidableEq, Repr

/-- `parser::BinaryOp`. -/
inductive BinaryOp where
  | add | sub | mul | div | mod | power
  | eq | notEq | strictEq | strictNotEq
  | lt | gt | ltEq | gtEq
  | and | or
  | bitAnd | bitOr | bitXor | leftShift | rightShift | unsignedRightShift
deriving DecidableEq, Repr

/-- `parser::UnaryOp`. -/
inductive UnaryOp where
  | plus | minus | not | bitNot | typeof | void | delete
deriving DecidableEq, Repr

mutual

/-- `parser::Expression`. -/
inductive Expression where
  | literal (lit : Literal)
  | identifier (name : String)
  | binary (op : BinaryOp) (left right : Expression)
  | unary (op : UnaryOp) (arg : Expression)
  | assignment (left right : Expression)
  | arrayLiteral (elements : List Expression)
  | objectLiteral (properties : List (String × Expression))
  | memberAccess (object property : Expression) (computed : Bool)
  | call (callee : Expression) (args : List Expression)
  | function (params : List String) (body : List Statement)

/-- `parser::Statement`. -/
inductive Statement where
  | expression (e : Expression)
  | variableDeclaration (kind : VarKind) (name : String)
      (init : Option Expression)
  | ret (e : Option Expression)
  | functionDeclaration (name : String) (params : List String)
      (body : List Statement)

end

/-- `parser::Program`. -/
structure Program where
  body : List Statement

/-- `BytecodeChunk::emit`. -/
def Chunk.emit (ch : Chunk) (op : Opcode) : Chunk :=
  { ch with code := ch.code ++ [op] }

/-- The linear scan of `add_constant`: index of the first `==`-equal
constant. -/
def findEqIdx : List JSValue → JSValue → Nat → Option Nat
  | [], _, _ => none
  | c :: rest, v, i => if rustEq c v then some i else findEqIdx rest v (i + 1)

/-- `BytecodeChunk::add_constant`: return the index of an existing
`==`-equal constant, else append and return the new index. -/
def addConstant (ch : Chunk) (v : JSValue) : Nat × Chunk :=
  match findEqIdx ch.constants v 0 with
  | some i => (i, ch)
  | none => (ch.constants.length, { ch with constants := ch.constants ++ [v] })

/-- The `JSValue` a literal compiles to. -/
def litValue : Literal → JSValue
  | .undefined => .undefined
  | .null => .null
  | .boolean b => .boolean b
  | .number n => .number n
  | .string s => .string s

/-- The opcode a binary operator lowers to. -/
def binOpcode : BinaryOp → Opcode
  | .add => .add
  | .sub => .sub
  | .mul => .mul
  | .div => .div
  | .mod => .mod
  | .power => .power
  | .eq => .eq
  | .notEq => .notEq
  | .strictEq => .strictEq
  | .strictNotEq => .strictNotEq
  | .lt => .lt
  | .gt => .gt
  | .ltEq => .ltEq
  | .gtEq => .gtEq
  | .and => .and
  | .or => .or
  | .bitAnd => .bitAnd
  | .bitOr => .bitOr
  | .bitXor => .bitXor
  | .leftShift => .leftShift
  | .rightShift => .rightShift
  | .unsignedRightShift => .unsignedRightShift

mutual

/-- `Compiler::compile_expression`. -/
def compileExpression : Expression → Chunk → Except JSErr Chunk
  | .literal lit, ch =>
      let (i, ch2) := addConstant ch (litValue lit)
      .ok (ch2.emit (.loadConst i))
  | .identifier name, ch => .ok (ch.emit (.loadVar name))
  | .binary op l r, ch => do
      let c1 ← compileExpression l ch
      let c2 ← compileExpression r c1
      pure (c2.emit (binOpcode op))
  | .unary op arg, ch => do
      let c1 ← compileExpression arg ch
      match op with
      | .plus => pure c1
      | .minus => pure (c1.emit .neg)
      | .not => pure (c1.emit .not)
      | .bitNot => pure (c1.emit .bitNot)
      | .typeof => pure (c1.emit .typeof)
      | .void => pure (c1.emit .void)
      | .delete =>
          throw (.internalError "delete operator not yet implemented")
  | .assignment l r, ch =>
      match l with
      | .identifier name => do
          let c1 ← compileExpression r ch
          pure ((c1.emit (.storeVar name)).emit (.loadVar name))
      | .memberAccess obj prop _ => do
          let c1 ← compileExpression obj ch
          let c2 ← compileExpression prop c1
          let c3 ← compileExpression r c2
          pure (c3.emit .setProperty)
      | _ => throw (.syntaxError "Invalid assignment target")
  | .arrayLiteral elems, ch =>
      compileArrayElems elems 0 (ch.emit (.newArray 0))
  | .objectLiteral props, ch => compileObjectProps props (ch.emit .newObject)
  | .memberAccess obj prop _, ch => do
      let c1 ← compileExpression obj ch
      let c2 ← compileExpression prop c1
      pure (c2.emit .getProperty)
  | .call callee args, ch => do
      let c1 ← compileExpression callee ch
      let c2 ← compileCallArgs args c1
      pure (c2.emit (.callFunction args.length))
  | .function params body, ch => do
      let sub ← compileStmts body ⟨[], []⟩
      let (idx, c1) := addConstant ch (.function sub.code sub.constants params none)
      pure (c1.emit (.createFunction idx))

/-- The array-literal loop: per element, compile it, load its index
constant, emit `ArrayPush`. -/
def compileArrayElems : List Expression → Nat → Chunk → Except JSErr Chunk
  | [], _, ch => .ok ch
  | e :: rest, i, ch => do
      let c1 ← compileExpression e ch
      let (idx, c2) := addConstant c1 (.number (.fin (i : ℚ) false))
      compileArrayElems rest (i + 1) ((c2.emit (.loadConst idx)).emit .arrayPush)

/-- The object-literal loop: per property, compile the value, load the
key constant, emit `ObjectSetProperty`. -/
def compileObjectProps : List (String × Expression) → Chunk → Except JSErr Chunk
  | [], ch => .ok ch
  | (key, value) :: rest, ch => do
      let c1 ← compileExpression value ch
      let (ki, c2) := addConstant c1 (.string key)
      compileObjectProps rest ((c2.emit (.loadConst ki)).emit .objectSetProperty)

/-- The call-argument loop (source order). -/
def compileCallArgs : List Expression → Chunk → Except JSErr Chunk
  | [], ch => .ok ch
  | a :: rest, ch => do
      let c1 ← compileExpression a ch
      compileCallArgs rest c1

/-- `Compiler::compile_statement`. -/
def compileStatement : Statement → Bool → Chunk → Except JSErr Chunk
  | .expression e, isLast, ch => do
      let c1 ← compileExpression e ch
      if isLast then pure c1 else pure (c1.emit .popOp)
  | .variableDeclaration _ name init, isLast, ch => do
      let c1 ← match init with
        | some e => compileExpression e ch
        | none =>
            let (i, c) := addConstant ch .undefined
            pure (c.emit (.loadConst i))
      let c2 := c1.emit (.storeVar name)
      if isLast then
        let (i, c3) := addConstant c2 .undefined
        pure (c3.emit (.loadConst i))
      else pure c2
  | .ret e, _, ch => do
      let c1 ← match e with
        | some ex => compileExpression ex ch
        | none =>
            let (i, c) := addConstant ch .undefined
            pure (c.emit (.loadConst i))
      pure (c1.emit .ret)
  | .functionDeclaration name params body, _, ch => do
      let sub ← compileStmts body ⟨[], []⟩
      let (idx, c1) := addConstant ch (.function sub.code sub.constants params none)
      pure ((c1.emit (.createFunction idx)).emit (.storeVar name))

/-- The statement loop of `Compiler::compile` (`is_last` marks the final
statement of the program). -/
def compileStmts : List Statement → Chunk → Except JSErr Chunk
  | [], ch => .ok ch
  | [s], ch => compileStatement s true ch
  | s :: rest, ch => do
      let c1 ← compileStatement s false ch
      compileStmts rest c1

end

/-- `Compiler::new().compile(program)`: lower a program into one chunk,
starting from an empty chunk. -/
def compileProgram (p : Program) : Except JSErr Chunk :=
  compileStmts p.body ⟨[], []⟩

/-- `JSEngine::eval` from the AST boundary on: compile, then execute on
the engine's current VM state (the lexer and parser are pure
collaborators specified at the boundary). -/
def engineEval (p : Program) (st : VMSt) (h : Heap) (fuel : Nat) : ExecResult :=
  match compileProgram p with
  | .error e => .err e st h
  | .ok ch => execute fuel ch 0 st h

/-- Evaluation on a freshly constructed engine (`JSEngine::new`). -/
def evalFresh (p : Program) (fuel : Nat) : ExecResult :=
  engineEval p initSt initHeap fuel

/-! ## Spec-side definitions and projections used by the theorems -/

/-- Modelled from the spec: the ECMAScript ToInt32 conversion the spec's
"Int32/UInt32 conversion" names — truncate, reduce modulo `2^32`,
reinterpret as signed 32-bit.  Stated for comparison with the source's
`as i32` cast (`JSNum.toI32sat`). -/
def toInt32spec : JSNum → Int
  | .nan => 0
  | .inf _ => 0
  | .fin q _ => i32ofNat32 (nat32 (JSNum.ratTrunc q))

/-- Read a binding of one specific frame (no chain walk). -/
def bindingRead (h : Heap) (id : Nat) (name : String) : Option JSValue :=
  match h.getEnv id with
  | some e => alLookup e.bindings name
  | none => none

/-- The frame holding the nearest binding of `name`, walking outward
from `id` (the frame `Environment::set` would overwrite and
`Environment::get` would read). -/
def findBinder (h : Heap) : Nat → Nat → String → Option Nat
  | 0, _, _ => none
  | fuel + 1, id, name =>
      match h.getEnv id with
      | none => none
      | some e =>
          if alContains e.bindings name then some id
          else
            match e.outer with
            | some o => findBinder h fuel o name
            | none => none

/-- Well-formed environment heap: every `outer` link points to an
earlier index (true of every VM-produced heap, where `with_outer`
always links a fresh record to an existing one). -/
def WFEnvs (h : Heap) : Prop :=
  ∀ i e, h.getEnv i = some e → ∀ o, e.outer = some o → o < i

/-- The delivered value of an execution result, if any. -/
def resultValue : ExecResult → Option JSValue
  | .ok v _ _ => some v
  | _ => none

/-- When a run delivers an object, read one of its own properties. -/
def resultObjProp (r : ExecResult) (key : String) : Option JSValue :=
  match r with
  | .ok (.object i) _ h => objGetOwn h i key
  | _ => none

/-- Is the result a structured `InternalError`? -/
def isInternalErrorRes : ExecResult → Bool
  | .err (.internalError _) _ _ => true
  | _ => false

/-- Is an error the `ReferenceError` category? -/
def JSErr.isRefErr : JSErr → Bool
  | .referenceError _ => true
  | _ => false

/-- The constant-pool interning invariant: pairwise `==`-inequality. -/
def PoolInterned (cs : List JSValue) : Prop :=
  cs.Pairwise (fun a b => rustEq a b = false)

/-- The own-property list an array literal's `ArrayPush` loop appends
for the pushed values, indices `k, k+1, …` (stringified), in order. -/
def arrPropsW : List JSValue → Nat → List (String × PropDesc)
  | [], _ => []
  | w :: rest, k =>
      (natDecimal k, PropDesc.data w) :: arrPropsW rest (k + 1)

/-- The instruction/constant layout the array-literal lowering leaves in
a chunk from position `p` on, pushing the values `ws` at indices
`k, k+1, …`: per element, a `LoadConst` of the value, a `LoadConst` of
the index as a Number (interning may select a `-0` representative for
index 0, hence the free zero-sign `nz`), and an `ArrayPush`. -/
def EncodesElems (ch : Chunk) : Nat → Nat → List JSValue → Prop
  | _, _, [] => True
  | p, k, w :: rest =>
      (∃ a, ch.code[p]? = some (.loadConst a) ∧ ch.constants[a]? = some w) ∧
      (∃ b nz, ch.code[p + 1]? = some (.loadConst b) ∧
        ch.constants[b]? = some (.number (.fin (k : ℚ) nz))) ∧
      ch.code[p + 2]? = some .arrayPush ∧
      EncodesElems ch (p + 3) (k + 1) rest

/-- The program consisting of a single array-literal expression whose
elements are the given literals. -/
def arrayLiteralProg (lits : List Literal) : Program :=
  ⟨[.expression (.arrayLiteral (lits.map .literal))]⟩

/-- `function c(){var k=0;return function(){k=k+1;return k;};}
var i=c(); i(); i()` — the closure-capture scenario of the spec. -/
def closureCounterProg : Program :=
  ⟨[.functionDeclaration "c" []
      [.variableDeclaration .var "k" (some (.literal (.number (.fin 0 false)))),
       .ret (some (.function []
         [.expression (.assignment (.identifier "k")
            (.binary .add (.identifier "k")
              (.literal (.number (.fin 1 false))))),
          .ret (some (.identifier "k"))]))],
    .variableDeclaration .var "i" (some (.call (.identifier "c") [])),
    .expression (.call (.identifier "i") []),
    .expression (.call (.identifier "i") [])]⟩

/-- Decimal value of a little-endian digit string (used to invert
`natDigitsLE`). -/
def decValLE : List Char → Nat
  | [] => 0
  | c :: cs => (c.toNat - 48) + 10 * decValLE cs

/-! ## General lemmas about the VM -/

/-- Popping exactly the prefix: the argument-popping loop of
`CallFunction` removes the top `n` values and leaves the rest. -/
theorem popN_append (xs rest : List JSValue) :
    popN xs.length (xs ++ rest) = some (xs, rest) := by
  induction xs with
  | nil => rfl
  | cons x xs ih => simp [popN, ih]

/-! ## C9: short-circuit `And`/`Or` select an operand value -/

/-- C9: With `a` beneath `b` on the stack, `And` pushes `a` itself when
`ToBoolean(a)` is false and pushes `b` otherwise; `Or` pushes `a` itself
when `ToBoolean(a)` is true and `b` otherwise.  The pushed value is the
selected operand itself (no coercion), the heap and environment are
untouched. -/
theorem and_or_select_operand_identity
    (fuel pc : Nat) (ch : Chunk) (st : VMSt) (h : Heap)
    (a b : JSValue) (rest : List JSValue)
    (hstk : st.stack = b :: a :: rest) :
    (ch.code[pc]? = some .and →
      execute (fuel + 1) ch pc st h =
        execute fuel ch (pc + 1)
          ⟨(if a.toBoolean = true then b else a) :: rest, st.env⟩ h) ∧
    (ch.code[pc]? = some .or →
      execute (fuel + 1) ch pc st h =
        execute fuel ch (pc + 1)
          ⟨(if a.toBoolean = true then a else b) :: rest, st.env⟩ h) := by
  constructor <;> intro hc <;>
    simp only [execute, hc, stepSimple, hstk] <;>
    cases htb : a.toBoolean <;> simp [htb]

/-- Witness for C9 at concrete operands (`a = false`, `b = Number 2`):
`And` pushes `a` itself. -/
theorem and_or_select_operand_identity_witness :
    execute 6 ⟨[.and], []⟩ 0 ⟨[.number (.fin 2 false), .boolean false], 0⟩
        initHeap =
      execute 5 ⟨[.and], []⟩ 1 ⟨[.boolean false], 0⟩ initHeap := by
  have hand := (and_or_select_operand_identity 5 0 ⟨[.and], []⟩
    ⟨[.number (.fin 2 false), .boolean false], 0⟩ initHeap
    (.boolean false) (.number (.fin 2 false)) [] rfl).1 rfl
  simpa using hand

/-! ## C7: bitwise instructions and the `as i32` conversion -/

/-- C7 (counterexample): at operand `Number (2^31)` — outside the 32-bit
range — `BitOr 0` pushes `Number 2147483647`: the source converts with
Rust's saturating `as i32` cast, not with the modulo-`2^32` ToInt32 the
claim states, which would give `-2147483648`. -/
theorem bitwise_not_toInt32_counterexample :
    resultValue (execute 10 ⟨[.loadConst 0, .loadConst 1, .bitOr],
        [.number (.fin (2 ^ 31) false), .number (.fin 0 false)]⟩
        0 initSt initHeap)
      = some (.number (.fin 2147483647 false)) ∧
    toInt32spec (.fin (2 ^ 31) false) = -2147483648 ∧
    i32lor (toInt32spec (.fin (2 ^ 31) false)) (toInt32spec (.fin 0 false))
      = -2147483648 ∧
    (.fin 2147483647 false : JSNum) ≠ .fin (-2147483648 : Int) false := by
  refine ⟨rfl, by decide, by decide, by decide⟩

/-- C7 (amended): the six binary bitwise instructions convert both
operands with Rust's saturating `as i32` cast (`JSNum.toI32sat`; NaN to
0, out-of-range values clamped), mask the shift count to its low 5 bits,
and push the result as a Number; `UnsignedRightShift` uses the `as u32`
cast, and `BitNot` pushes `Number (-(cast(x)) - 1)`. -/
theorem bitwise_ops_saturating_cast
    (fuel pc : Nat) (ch : Chunk) (st : VMSt) (h : Heap)
    (v w : JSValue) (rest : List JSValue)
    (hstk : st.stack = w :: v :: rest) :
    (ch.code[pc]? = some .bitAnd →
      execute (fuel + 1) ch pc st h = execute fuel ch (pc + 1)
        ⟨.number (.fin (i32land v.toNumber.toI32sat w.toNumber.toI32sat : Int)
            false) :: rest, st.env⟩ h) ∧
    (ch.code[pc]? = some .bitOr →
      execute (fuel + 1) ch pc st h = execute fuel ch (pc + 1)
        ⟨.number (.fin (i32lor v.toNumber.toI32sat w.toNumber.toI32sat : Int)
            false) :: rest, st.env⟩ h) ∧
    (ch.code[pc]? = some .bitXor →
      execute (fuel + 1) ch pc st h = execute fuel ch (pc + 1)
        ⟨.number (.fin (i32lxor v.toNumber.toI32sat w.toNumber.toI32sat : Int)
            false) :: rest, st.env⟩ h) ∧
    (ch.code[pc]? = some .leftShift →
      execute (fuel + 1) ch pc st h = execute fuel ch (pc + 1)
        ⟨.number (.fin (i32shl v.toNumber.toI32sat w.toNumber.toI32sat : Int)
            false) :: rest, st.env⟩ h) ∧
    (ch.code[pc]? = some .rightShift →
      execute (fuel + 1) ch pc st h = execute fuel ch (pc + 1)
        ⟨.number (.fin (i32shr v.toNumber.toI32sat w.toNumber.toI32sat : Int)
            false) :: rest, st.env⟩ h) ∧
    (ch.code[pc]? = some .unsignedRightShift →
      execute (fuel + 1) ch pc st h = execute fuel ch (pc + 1)
        ⟨.number (.fin ((v.toNumber.toU32sat /
            2 ^ (w.toNumber.toU32sat % 32) : Nat) : ℚ) false) :: rest,
          st.env⟩ h) ∧
    (ch.code[pc]? = some .bitNot →
      execute (fuel + 1) ch pc st h = execute fuel ch (pc + 1)
        ⟨.number (.fin ((-(w.toNumber.toI32sat) - 1 : Int) : ℚ) false)
            :: v :: rest, st.env⟩ h) := by
  refine ⟨fun hc => ?_, fun hc => ?_, fun hc => ?_, fun hc => ?_,
          fun hc => ?_, fun hc => ?_, fun hc => ?_⟩ <;>
    simp [execute, hc, stepSimple, bitwiseOp, binaryOp, unaryOp, hstk]

/-- Witness for C7's amended theorem at `Number (2^31) & Number 0`
(the saturated cast clamps `2^31` to `2^31 - 1`; the result is 0). -/
theorem bitwise_ops_saturating_cast_witness :
    execute 6 ⟨[.bitAnd], []⟩ 0
        ⟨[.number (.fin 0 false), .number (.fin (2 ^ 31) false)], 0⟩
        initHeap =
      execute 5 ⟨[.bitAnd], []⟩ 1 ⟨[.number (.fin 0 false)], 0⟩
        initHeap := by
  have hb := (bitwise_ops_saturating_cast 5 0 ⟨[.bitAnd], []⟩
    ⟨[.number (.fin 0 false), .number (.fin (2 ^ 31) false)], 0⟩
    initHeap (.number (.fin (2 ^ 31) false)) (.number (.fin 0 false))
    [] rfl).1 rfl
  rw [hb]
  have hcast : i32land (JSNum.fin (2 ^ 31) false).toI32sat
      (JSNum.fin 0 false).toI32sat = 0 := by decide
  simp [JSValue.toNumber, hcast]

/-! ## C2: `CallFunction` frame effect -/

/-- C2: For a `CallFunction n` whose callee returns normally (the
hypothesis `hrun` is the callee's chunk executing *from a fresh empty
operand stack* in the fresh environment), the VM afterwards continues
with the caller's environment exactly as before the call, and with the
caller's operand stack as it was below the arguments and callee, with
only the callee's result pushed; the callee's final stack `stc` is
discarded entirely. -/
theorem call_function_frame_effect
    (fuel pc n : Nat) (ch : Chunk) (st : VMSt) (h : Heap)
    (argsRev rest : List JSValue) (fcode : List Opcode)
    (fconsts : List JSValue) (params : List String) (captured : Option Nat)
    (v : JSValue) (stc : VMSt) (h3 : Heap)
    (hcode : ch.code[pc]? = some (.callFunction n))
    (hstk : st.stack = argsRev ++ .function fcode fconsts params captured :: rest)
    (hn : argsRev.length = n)
    (hrun : execute fuel ⟨fcode, fconsts⟩ 0 ⟨[], h.envs.length⟩
        (bindParams params h.envs.length 0 argsRev.reverse
          { h with envs := h.envs ++ [⟨[], some (captured.getD st.env)⟩] })
        = .ok v stc h3) :
    execute (fuel + 1) ch pc st h =
      execute fuel ch (pc + 1) ⟨v :: rest, st.env⟩ h3 := by
  subst hn
  simp only [execute, hcode, hstk, popN_append, Heap.allocEnv]
  rw [hrun]

/-- Witness for C2: a no-argument call of a function with an empty body
(the callee falls through its empty chunk and returns `Undefined`). -/
theorem call_function_frame_effect_witness :
    execute 6 ⟨[.callFunction 0], []⟩ 0 ⟨[.function [] [] [] none], 0⟩
        initHeap =
      execute 5 ⟨[.callFunction 0], []⟩ 1 ⟨[.undefined], 0⟩
        ⟨[⟨[], none⟩, ⟨[], some 0⟩], []⟩ := by
  exact call_function_frame_effect 5 0 0 ⟨[.callFunction 0], []⟩
    ⟨[.function [] [] [] none], 0⟩ initHeap [] [] [] [] [] none
    .undefined ⟨[], 1⟩ ⟨[⟨[], none⟩, ⟨[], some 0⟩], []⟩ rfl rfl rfl rfl

/-! ## C4: `CreateFunction` captures the current environment -/

/-- C4: `CreateFunction i` pushes a Function wrapping the same chunk and
parameters as the interned constant but whose captured-environment field
is the VM's *current* environment at execution time, whatever (if
anything) the constant carried; consequently the spec's closure-counter
program `function c(){var k=0;return function(){k=k+1;return k;};}
var i=c(); i(); i()` evaluates to `Number 2`. -/
theorem create_function_captures_current_env :
    (∀ (fuel pc idx : Nat) (ch : Chunk) (st : VMSt) (h : Heap)
        (fcode : List Opcode) (fconsts : List JSValue)
        (params : List String) (envOpt : Option Nat),
      ch.code[pc]? = some (.createFunction idx) →
      ch.constants[idx]? = some (.function fcode fconsts params envOpt) →
      execute (fuel + 1) ch pc st h =
        execute fuel ch (pc + 1)
          ⟨.function fcode fconsts params (some st.env) :: st.stack, st.env⟩ h) ∧
    resultValue (evalFresh closureCounterProg 100)
      = some (.number (.fin 2 false)) := by
  constructor
  · intro fuel pc idx ch st h fcode fconsts params envOpt hcode hconst
    simp only [execute, hcode, stepSimple, hconst]
  · rfl

/-- Witness for C4: a `CreateFunction` over a constant interned with no
environment pushes a closure over the current environment (frame 0). -/
theorem create_function_captures_current_env_witness :
    execute 6 ⟨[.createFunction 0], [.function [] [] [] none]⟩ 0 initSt
        initHeap =
      execute 5 ⟨[.createFunction 0], [.function [] [] [] none]⟩ 1
        ⟨[.function [] [] [] (some 0)], 0⟩ initHeap := by
  exact create_function_captures_current_env.1 5 0 0
    ⟨[.createFunction 0], [.function [] [] [] none]⟩ initSt initHeap
    [] [] [] none rfl rfl

/-- One dispatch of an in-bounds `Jump` just sets the program counter. -/
theorem execute_jump_step (fuel pc t : Nat) (ch : Chunk) (st : VMSt)
    (h : Heap) (hc : ch.code[pc]? = some (.jump t)) :
    execute (fuel + 1) ch pc st h = execute fuel ch t st h := by
  simp [execute, hc, stepSimple]

/-- One dispatch of `JumpIfFalse` on a falsy condition sets the program
counter. -/
theorem execute_jumpIfFalse_false_step (fuel pc t : Nat) (ch : Chunk)
    (st : VMSt) (h : Heap) (c : JSValue) (rest : List JSValue)
    (hc : ch.code[pc]? = some (.jumpIfFalse t)) (hs : st.stack = c :: rest)
    (htb : c.toBoolean = false) :
    execute (fuel + 1) ch pc st h = execute fuel ch t ⟨rest, st.env⟩ h := by
  simp [execute, hc, stepSimple, hs, htb]

/-- A program counter past the end of the instruction stream ends the
run with the fall-through result. -/
theorem execute_fallthrough (fuel pc : Nat) (ch : Chunk) (st : VMSt)
    (h : Heap) (hpc : ch.code[pc]? = none) :
    execute (fuel + 1) ch pc st h = fallRes st h := by
  simp [execute, hpc]

/-! ## C6: which failures are structured `InternalError`s -/

/-- C6 (counterexample): an out-of-bounds jump target does not produce
an `InternalError` result — `Jump 5` in a one-instruction chunk ends the
dispatch loop and returns `Undefined` normally; and an out-of-bounds
`LoadConst` does not produce an `InternalError` result either — it is a
Rust panic (`Vec` index out of bounds), not a structured error. -/
theorem internal_error_cases_counterexample :
    execute 10 ⟨[.jump 5], []⟩ 0 initSt initHeap
        = .ok .undefined initSt initHeap ∧
    isInternalErrorRes (execute 10 ⟨[.jump 5], []⟩ 0 initSt initHeap)
        = false ∧
    execute 10 ⟨[.loadConst 0], []⟩ 0 initSt initHeap
        = .crash "index out of bounds" ∧
    isInternalErrorRes (execute 10 ⟨[.loadConst 0], []⟩ 0 initSt initHeap)
        = false :=
  ⟨rfl, rfl, rfl, rfl⟩

/-- C6 (amended): a pop on an empty operand stack yields the structured
`InternalError "Stack underflow"`, and compiling the `delete` operator
yields a structured `InternalError`; but an out-of-bounds `LoadConst` or
`CreateFunction` constant index is a Rust panic (process abort, not a
structured error), and an out-of-bounds `Jump`/`JumpIfFalse` target
simply ends the dispatch loop, returning the stack top (or `Undefined`)
as a normal result. -/
theorem internal_error_cases
    (fuel pc t i : Nat) (ch : Chunk) (st : VMSt) (h : Heap) :
    (ch.code[pc]? = some .ret → st.stack = [] →
      execute (fuel + 1) ch pc st h = .err underflowErr ⟨[], st.env⟩ h) ∧
    (ch.code[pc]? = some .add → st.stack = [] →
      execute (fuel + 1) ch pc st h = .err underflowErr ⟨[], st.env⟩ h) ∧
    (∀ e c1, compileExpression e ⟨[], []⟩ = .ok c1 →
      compileExpression (.unary .delete e) ⟨[], []⟩
        = .error (.internalError "delete operator not yet implemented")) ∧
    (ch.code[pc]? = some (.loadConst i) → ch.constants.length ≤ i →
      execute (fuel + 1) ch pc st h = .crash "index out of bounds") ∧
    (ch.code[pc]? = some (.createFunction i) → ch.constants.length ≤ i →
      execute (fuel + 1) ch pc st h = .crash "index out of bounds") ∧
    (ch.code[pc]? = some (.jump t) → ch.code.length ≤ t →
      execute (fuel + 2) ch pc st h = fallRes st h) ∧
    (∀ c rest, ch.code[pc]? = some (.jumpIfFalse t) → ch.code.length ≤ t →
      st.stack = c :: rest → c.toBoolean = false →
      execute (fuel + 2) ch pc st h = fallRes ⟨rest, st.env⟩ h) := by
  refine ⟨fun hc hs => ?_, fun hc hs => ?_, fun e c1 hcomp => ?_,
          fun hc hb => ?_, fun hc hb => ?_, fun hc hb => ?_,
          fun c rest hc hb hs htb => ?_⟩
  · simp [execute, hc, stepSimple, hs]
  · simp [execute, hc, stepSimple, binaryOp, jsAdd, hs]
  · simp only [compileExpression, hcomp]; rfl
  · simp [execute, hc, stepSimple, List.getElem?_eq_none hb]
  · simp [execute, hc, stepSimple, List.getElem?_eq_none hb]
  · rw [execute_jump_step (fuel + 1) pc t ch st h hc,
      execute_fallthrough fuel t ch st h (List.getElem?_eq_none hb)]
  · rw [execute_jumpIfFalse_false_step (fuel + 1) pc t ch st h c rest hc hs htb,
      execute_fallthrough fuel t ch ⟨rest, st.env⟩ h (List.getElem?_eq_none hb)]

/-- Witness for C6's amended theorem: each conjunct at a concrete
input. -/
theorem internal_error_cases_witness :
    execute 3 ⟨[.ret], []⟩ 0 initSt initHeap
        = .err underflowErr ⟨[], 0⟩ initHeap ∧
    compileExpression (.unary .delete (.literal .null)) ⟨[], []⟩
        = .error (.internalError "delete operator not yet implemented") ∧
    execute 4 ⟨[.jump 9], []⟩ 0 initSt initHeap = fallRes initSt initHeap := by
  refine ⟨?_, ?_, ?_⟩
  · exact (internal_error_cases 2 0 0 0 ⟨[.ret], []⟩ initSt initHeap).1
      rfl rfl
  · exact (internal_error_cases 0 0 0 0 ⟨[.ret], []⟩ initSt
      initHeap).2.2.1 (.literal .null) ⟨[.loadConst 0], [.null]⟩ rfl
  · exact (internal_error_cases 2 0 9 0 ⟨[.jump 9], []⟩ initSt
      initHeap).2.2.2.2.2.1 rfl (by simp)

/-! ## Lemmas about the environment chain -/

/-- Inserting a key makes it readable. -/
theorem alLookup_alInsert_self {α : Type} (l : List (String × α))
    (k : String) (v : α) : alLookup (alInsert l k v) k = some v := by
  induction l with
  | nil => simp [alInsert, alLookup]
  | cons p rest ih =>
      obtain ⟨k1, v1⟩ := p
      by_cases hk : k1 = k <;> simp [alInsert, alLookup, hk, ih]

/-- Inserting a key leaves every other key unchanged. -/
theorem alLookup_alInsert_ne {α : Type} (l : List (String × α))
    (k : String) (v : α) (k2 : String) (hne : k2 ≠ k) :
    alLookup (alInsert l k v) k2 = alLookup l k2 := by
  induction l with
  | nil => simp [alInsert, alLookup, Ne.symm hne]
  | cons p rest ih =>
      obtain ⟨k1, v1⟩ := p
      by_cases hk : k1 = k
      · subst hk
        simp [alInsert, alLookup, Ne.symm hne]
      · by_cases hk2 : k1 = k2
        · subst hk2
          simp [alInsert, alLookup, hk]
        · simp [alInsert, alLookup, hk, hk2, ih]

/-- Reading an updated heap: the written frame, or the old one. -/
theorem getEnv_setEnv (h : Heap) (j : Nat) (e : EnvRec) (i : Nat)
    (hj : j < h.envs.length) :
    (h.setEnv j e).getEnv i = if i = j then some e else h.getEnv i := by
  by_cases hij : i = j
  · subst hij; simp [Heap.getEnv, Heap.setEnv, List.getElem?_set_eq hj]
  · simp [Heap.getEnv, Heap.setEnv,
      List.getElem?_set_ne (fun hh => hij hh.symm), hij]

/-- `Environment::get` reads the binding of the frame `findBinder`
names (the nearest frame binding the name), and is absent otherwise. -/
theorem envGet_eq_findBinder (h : Heap) :
    ∀ (fuel id : Nat) (name : String),
    envGet h fuel id name
      = (findBinder h fuel id name).bind (fun j => bindingRead h j name) := by
  intro fuel
  induction fuel with
  | zero => intro id name; rfl
  | succ f ih =>
      intro id name
      simp only [envGet, findBinder]
      cases hge : h.getEnv id with
      | none => rfl
      | some e =>
          cases hal : alLookup e.bindings name with
          | some v => simp [alContains, hal, bindingRead, hge]
          | none =>
              simp only [alContains, hal, Option.isSome_none, Bool.false_eq_true,
                if_false]
              cases e.outer with
              | some o => exact ih o name
              | none => rfl

/-- `Environment::set` characterised by `findBinder`: a hit overwrites
exactly the nearest binding frame (which does contain the name); a miss
reports failure. -/
theorem envSet_eq_findBinder (h : Heap) (v : JSValue) :
    ∀ (fuel id : Nat) (name : String),
    (∀ j, findBinder h fuel id name = some j →
      ∃ e, h.getEnv j = some e ∧ alContains e.bindings name = true ∧
        envSet h fuel id name v
          = some (h.setEnv j { e with bindings := alInsert e.bindings name v })) ∧
    (findBinder h fuel id name = none → envSet h fuel id name v = none) := by
  intro fuel
  induction fuel with
  | zero => intro id name; exact ⟨fun j hj => by simp [findBinder] at hj,
      fun _ => rfl⟩
  | succ f ih =>
      intro id name
      constructor
      · intro j hj
        simp only [findBinder] at hj
        cases hge : h.getEnv id with
        | none => simp [hge] at hj
        | some e =>
            rw [hge] at hj
            by_cases hcont : alContains e.bindings name
            · simp only [hcont, if_true, Option.some.injEq] at hj
              subst hj
              exact ⟨e, hge, hcont, by simp [envSet, hge, hcont]⟩
            · simp only [hcont] at hj
              cases hout : e.outer with
              | none => simp [hout] at hj
              | some o =>
                  rw [hout] at hj
                  simp only [if_false] at hj
                  obtain ⟨e2, hge2, hcont2, hset2⟩ := (ih o name).1 j hj
                  refine ⟨e2, hge2, hcont2, ?_⟩
                  simp [envSet, hge, hcont, hout, hset2]
      · intro hj
        simp only [findBinder] at hj
        cases hge : h.getEnv id with
        | none => simp [envSet, hge]
        | some e =>
            rw [hge] at hj
            by_cases hcont : alContains e.bindings name
            · simp [hcont] at hj
            · simp only [hcont] at hj
              cases hout : e.outer with
              | none => simp [envSet, hge, hcont, hout]
              | some o =>
                  rw [hout] at hj
                  simp only [if_false] at hj
                  simp [envSet, hge, hcont, hout, (ih o name).2 hj]

/-! ## C3: the `StoreVar` write discipline -/

/-- C3: executing `StoreVar name` pops the value and updates the heap by
the `set`-then-`define` discipline; when some frame up the chain binds
`name`, the nearest such binding (frame `findBinder` names) is
overwritten in place, every other binding of every frame is unchanged,
and no binding is created or removed anywhere; when no frame binds
`name`, a fresh binding is installed in the current frame and all other
bindings are unchanged.  (`WFEnvs` restricts to heaps whose `outer`
links point outward, as all VM-produced heaps do, so the
`h.envs.length` fuel covers the whole chain.) -/
theorem store_var_write_discipline
    (fuel pc : Nat) (ch : Chunk) (st : VMSt) (h : Heap)
    (name : String) (v : JSValue) (rest : List JSValue)
    (hwf : WFEnvs h) (henv : st.env < h.envs.length)
    (hcode : ch.code[pc]? = some (.storeVar name))
    (hstk : st.stack = v :: rest) :
    execute (fuel + 1) ch pc st h
      = execute fuel ch (pc + 1) ⟨rest, st.env⟩ (storeVarHeap h st.env name v) ∧
    (∀ j, findBinder h h.envs.length st.env name = some j →
      bindingRead (storeVarHeap h st.env name v) j name = some v ∧
      (∀ i nm, ¬(i = j ∧ nm = name) →
        bindingRead (storeVarHeap h st.env name v) i nm = bindingRead h i nm) ∧
      (∀ i nm, (bindingRead (storeVarHeap h st.env name v) i nm).isSome
        = (bindingRead h i nm).isSome)) ∧
    (findBinder h h.envs.length st.env name = none →
      bindingRead (storeVarHeap h st.env name v) st.env name = some v ∧
      (∀ i nm, ¬(i = st.env ∧ nm = name) →
        bindingRead (storeVarHeap h st.env name v) i nm = bindingRead h i nm)) := by
  refine ⟨by simp [execute, hcode, stepSimple, hstk], ?_, ?_⟩
  · intro j hj
    obtain ⟨e, hge, hcont, hset⟩ :=
      (envSet_eq_findBinder h v h.envs.length st.env name).1 j hj
    have hjlt : j < h.envs.length := by
      by_contra hlt
      simp [Heap.getEnv, List.getElem?_eq_none (Nat.le_of_not_lt hlt)] at hge
    have hsv : storeVarHeap h st.env name v
        = h.setEnv j { e with bindings := alInsert e.bindings name v } := by
      simp [storeVarHeap, hset]
    refine ⟨?_, ?_, ?_⟩
    · simp [hsv, bindingRead, getEnv_setEnv _ _ _ _ hjlt,
        alLookup_alInsert_self]
    · intro i nm hne
      by_cases hij : i = j
      · subst hij
        have hnm : nm ≠ name := fun hh => hne ⟨rfl, hh⟩
        simp [hsv, bindingRead, getEnv_setEnv _ _ _ _ hjlt, hge,
          alLookup_alInsert_ne _ _ _ _ hnm]
      · simp [hsv, bindingRead, getEnv_setEnv _ _ _ _ hjlt, hij]
    · intro i nm
      by_cases hij : i = j
      · subst hij
        by_cases hnm : nm = name
        · subst hnm
          simp only [alContains] at hcont
          simp [hsv, bindingRead, getEnv_setEnv _ _ _ _ hjlt, hge,
            alLookup_alInsert_self, hcont]
        · simp [hsv, bindingRead, getEnv_setEnv _ _ _ _ hjlt, hge,
            alLookup_alInsert_ne _ _ _ _ hnm]
      · simp [hsv, bindingRead, getEnv_setEnv _ _ _ _ hjlt, hij]
  · intro hnone
    have hset := (envSet_eq_findBinder h v h.envs.length st.env name).2 hnone
    obtain ⟨e, hge⟩ : ∃ e, h.getEnv st.env = some e :=
      ⟨h.envs[st.env], by simp [Heap.getEnv, List.getElem?_eq_getElem henv]⟩
    have hsv : storeVarHeap h st.env name v
        = h.setEnv st.env { e with bindings := alInsert e.bindings name v } := by
      simp [storeVarHeap, hset, envDefine, hge]
    constructor
    · simp [hsv, bindingRead, getEnv_setEnv _ _ _ _ henv,
        alLookup_alInsert_self]
    · intro i nm hne
      by_cases hij : i = st.env
      · subst hij
        have hnm : nm ≠ name := fun hh => hne ⟨rfl, hh⟩
        simp [hsv, bindingRead, getEnv_setEnv _ _ _ _ henv, hge,
          alLookup_alInsert_ne _ _ _ _ hnm]
      · simp [hsv, bindingRead, getEnv_setEnv _ _ _ _ henv, hij]

/-- Witness for C3: storing to a bound name in the single global frame
overwrites that binding. -/
theorem store_var_write_discipline_witness :
    execute 4 ⟨[.storeVar "x"], []⟩ 0 ⟨[.boolean true], 0⟩
        ⟨[⟨[("x", .null)], none⟩], []⟩
      = execute 3 ⟨[.storeVar "x"], []⟩ 1 ⟨[], 0⟩
          (storeVarHeap ⟨[⟨[("x", .null)], none⟩], []⟩ 0 "x" (.boolean true)) ∧
    bindingRead (storeVarHeap ⟨[⟨[("x", .null)], none⟩], []⟩ 0 "x"
        (.boolean true)) 0 "x" = some (.boolean true) := by
  have hwf : WFEnvs ⟨[⟨[("x", .null)], none⟩], []⟩ := by
    intro i e hge o ho
    match i with
    | 0 =>
        simp [Heap.getEnv] at hge
        rw [← hge] at ho
        simp at ho
    | _ + 1 => simp [Heap.getEnv] at hge
  have hmain := store_var_write_discipline 3 0 ⟨[.storeVar "x"], []⟩
    ⟨[.boolean true], 0⟩ ⟨[⟨[("x", .null)], none⟩], []⟩ "x" (.boolean true)
    [] hwf (by simp) rfl rfl
  exact ⟨hmain.1, (hmain.2.1 0 rfl).1⟩

/-! ## Generic dispatch lemmas for inductions over the interpreter -/

/-- Unfolding one `execute` step for any instruction other than
`CallFunction`. -/
theorem execute_dispatch_step (fuel pc : Nat) (ch : Chunk) (st : VMSt)
    (h : Heap) (op : Opcode) (hcode : ch.code[pc]? = some op)
    (hnc : ∀ n, op ≠ .callFunction n) :
    execute (fuel + 1) ch pc st h =
      match stepSimple ch op st h with
      | .next st2 h2 => execute fuel ch (pc + 1) st2 h2
      | .jumpTo t st2 h2 => execute fuel ch t st2 h2
      | .retWith v st2 h2 => .ok v st2 h2
      | .fail e st2 h2 => .err e st2 h2
      | .crash m => .crash m := by
  cases op <;> first
    | exact absurd rfl (hnc _)
    | simp only [execute, hcode]

/-- Every structured error `stepSimple` can produce is a `TypeError` or
an `InternalError` — never a `ReferenceError`. -/
theorem stepSimple_fail_kind (ch : Chunk) (op : Opcode) (st : VMSt)
    (h : Heap) (e : JSErr) (st2 : VMSt) (h2 : Heap)
    (hstep : stepSimple ch op st h = .fail e st2 h2) : e.isRefErr = false := by
  cases op <;>
    simp only [stepSimple, binaryOp, binaryNumericOp, comparisonOp,
      numericComparisonOp, bitwiseOp, unaryOp] at hstep <;>
    (repeat' split at hstep) <;>
    (try cases hstep) <;>
    rfl

/-! ## C8: `LoadVar` pushes the nearest binding or `Undefined`;
no `ReferenceError` is ever raised -/

/-- C8: `LoadVar name` pushes the result of the environment-chain
lookup, defaulting to `Undefined` when absent, and never fails;
`Environment::get` reads exactly the nearest binding of the name
(the frame `findBinder` names); and no run of the VM ever returns a
`ReferenceError`, whatever the chunk and state. -/
theorem load_var_nearest_binding_no_reference_error :
    (∀ (fuel pc : Nat) (ch : Chunk) (st : VMSt) (h : Heap) (name : String),
      ch.code[pc]? = some (.loadVar name) →
      execute (fuel + 1) ch pc st h
        = execute fuel ch (pc + 1)
            ⟨((envGet h h.envs.length st.env name).getD .undefined) :: st.stack,
              st.env⟩ h) ∧
    (∀ (h : Heap) (fuel id : Nat) (name : String),
      envGet h fuel id name
        = (findBinder h fuel id name).bind (fun j => bindingRead h j name)) ∧
    (∀ (fuel pc : Nat) (ch : Chunk) (st : VMSt) (h : Heap) (e : JSErr)
        (stc : VMSt) (hc : Heap),
      execute fuel ch pc st h = .err e stc hc → e.isRefErr = false) := by
  refine ⟨?_, fun h fuel id name => envGet_eq_findBinder h fuel id name, ?_⟩
  · intro fuel pc ch st h name hcode
    simp [execute, hcode, stepSimple]
  · intro fuel
    induction fuel with
    | zero => intro pc ch st h e stc hc hx; simp [execute] at hx
    | succ f ih =>
        intro pc ch st h e stc hc hx
        cases hcode : ch.code[pc]? with
        | none =>
            rw [execute, hcode] at hx
            cases hs : st.stack <;> simp [fallRes, hs] at hx
        | some op =>
            cases hcall : op with
            | callFunction n =>
                subst hcall
                simp only [execute, hcode] at hx
                cases hpop : popN n st.stack with
                | none =>
                    rw [hpop] at hx
                    cases hx
                    rfl
                | some pr =>
                    rw [hpop] at hx
                    obtain ⟨popped, rest1⟩ := pr
                    cases rest1 with
                    | nil =>
                        simp only at hx
                        cases hx
                        rfl
                    | cons f1 rest =>
                        simp only at hx
                        cases f1 with
                        | function fcode fconsts params captured =>
                            simp only at hx
                            cases hrun : execute f ⟨fcode, fconsts⟩ 0
                                ⟨[], (h.allocEnv ⟨[], some (captured.getD st.env)⟩).1⟩
                                (bindParams params
                                  (h.allocEnv ⟨[], some (captured.getD st.env)⟩).1 0
                                  popped.reverse
                                  (h.allocEnv ⟨[], some (captured.getD st.env)⟩).2) with
                            | ok v stc2 h3 =>
                                rw [hrun] at hx
                                exact ih (pc + 1) ch ⟨v :: rest, st.env⟩ h3 e stc hc hx
                            | err e2 stc2 h3 =>
                                rw [hrun] at hx
                                cases hx
                                exact ih 0 _ _ _ _ _ _ hrun
                            | crash m => rw [hrun] at hx; cases hx
                            | timeout => rw [hrun] at hx; cases hx
                        | undefined => simp only at hx; cases hx; rfl
                        | null => simp only at hx; cases hx; rfl
                        | boolean b => simp only at hx; cases hx; rfl
                        | number nn => simp only at hx; cases hx; rfl
                        | string s => simp only at hx; cases hx; rfl
                        | object i => simp only at hx; cases hx; rfl
            | _ =>
                rw [execute_dispatch_step f pc ch st h op hcode
                  (by subst hcall; simp)] at hx
                · cases hstep : stepSimple ch op st h with
                  | next st2 h2 =>
                      rw [hstep] at hx
                      exact ih (pc + 1) ch st2 h2 e stc hc hx
                  | jumpTo t st2 h2 =>
                      rw [hstep] at hx
                      exact ih t ch st2 h2 e stc hc hx
                  | retWith v st2 h2 => rw [hstep] at hx; cases hx
                  | fail e2 st2 h2 =>
                      rw [hstep] at hx
                      cases hx
                      exact stepSimple_fail_kind ch op st h _ _ _ hstep
                  | crash m => rw [hstep] at hx; cases hx

/-- Witness for C8: loading an unbound name on a fresh engine pushes
`Undefined`, and a concrete failing run's error is not a
`ReferenceError`. -/
theorem load_var_nearest_binding_no_reference_error_witness :
    (execute 4 ⟨[.loadVar "y"], []⟩ 0 initSt initHeap
      = execute 3 ⟨[.loadVar "y"], []⟩ 1 ⟨[.undefined], 0⟩ initHeap) ∧
    underflowErr.isRefErr = false := by
  constructor
  · exact load_var_nearest_binding_no_reference_error.1 3 0
      ⟨[.loadVar "y"], []⟩ initSt initHeap "y" rfl
  · exact load_var_nearest_binding_no_reference_error.2.2 3 0
      ⟨[.ret], []⟩ initSt initHeap underflowErr ⟨[], 0⟩ initHeap rfl

/-! ## Fuel monotonicity: a terminating run's result is independent of
the fuel bound -/

/-- Unfolding one `CallFunction` dispatch whose callee is a Function
value: pop the arguments and callee, run the callee's chunk from an
empty stack in the fresh environment, restore, push (or propagate). -/
theorem execute_call_step (fuel pc n : Nat) (ch : Chunk) (st : VMSt)
    (h : Heap) (popped rest : List JSValue) (fcode : List Opcode)
    (fconsts : List JSValue) (params : List String) (captured : Option Nat)
    (hcode : ch.code[pc]? = some (.callFunction n))
    (hpop : popN n st.stack
      = some (popped, .function fcode fconsts params captured :: rest)) :
    execute (fuel + 1) ch pc st h =
      match execute fuel ⟨fcode, fconsts⟩ 0
          ⟨[], (h.allocEnv ⟨[], some (captured.getD st.env)⟩).1⟩
          (bindParams params (h.allocEnv ⟨[], some (captured.getD st.env)⟩).1 0
            popped.reverse (h.allocEnv ⟨[], some (captured.getD st.env)⟩).2) with
      | .ok v _ h3 => execute fuel ch (pc + 1) ⟨v :: rest, st.env⟩ h3
      | .err e stc h3 => .err e stc h3
      | .crash m => .crash m
      | .timeout => .timeout := by
  simp only [execute, hcode, hpop]

/-- A `CallFunction` whose argument pops underflow, or whose callee slot
is missing, reports the stack-underflow `InternalError`. -/
theorem execute_call_underflow (fuel pc n : Nat) (ch : Chunk) (st : VMSt)
    (h : Heap)
    (hcode : ch.code[pc]? = some (.callFunction n))
    (hpop : popN n st.stack = none ∨
      ∃ popped, popN n st.stack = some (popped, [])) :
    execute (fuel + 1) ch pc st h = .err underflowErr ⟨[], st.env⟩ h := by
  rcases hpop with hpop | ⟨popped, hpop⟩ <;> simp only [execute, hcode, hpop]

/-- A `CallFunction` whose callee is not a Function value reports a
`TypeError`. -/
theorem execute_call_notfun (fuel pc n : Nat) (ch : Chunk) (st : VMSt)
    (h : Heap) (popped rest : List JSValue) (x : JSValue)
    (hcode : ch.code[pc]? = some (.callFunction n))
    (hpop : popN n st.stack = some (popped, x :: rest))
    (hx : ∀ a b c d, x ≠ .function a b c d) :
    execute (fuel + 1) ch pc st h
      = .err (.typeError "CallFunction: not a function") ⟨rest, st.env⟩ h := by
  cases x <;> first
    | exact absurd rfl (hx _ _ _ _)
    | simp only [execute, hcode, hpop]

/-- Giving the interpreter more fuel never changes the result of a run
that already finished (only `timeout` runs can change). -/
theorem execute_mono :
    ∀ (f1 f2 : Nat), f1 ≤ f2 → ∀ (ch : Chunk) (pc : Nat) (st : VMSt)
      (h : Heap), execute f1 ch pc st h ≠ .timeout →
      execute f2 ch pc st h = execute f1 ch pc st h := by
  intro f1
  induction f1 with
  | zero =>
      intro f2 hle ch pc st h hne
      exact absurd rfl hne
  | succ f ih =>
      intro f2 hle ch pc st h hne
      obtain ⟨g, rfl⟩ : ∃ g, f2 = g + 1 := ⟨f2 - 1, by omega⟩
      have hf : f ≤ g := by omega
      cases hcode : ch.code[pc]? with
      | none => simp only [execute, hcode]
      | some op =>
          cases hcall : op with
          | callFunction n =>
              subst hcall
              cases hpop : popN n st.stack with
              | none =>
                  rw [execute_call_underflow f pc n ch st h hcode (.inl hpop),
                    execute_call_underflow g pc n ch st h hcode (.inl hpop)]
              | some pr =>
                  obtain ⟨popped, rest1⟩ := pr
                  cases rest1 with
                  | nil =>
                      rw [execute_call_underflow f pc n ch st h hcode
                          (.inr ⟨popped, hpop⟩),
                        execute_call_underflow g pc n ch st h hcode
                          (.inr ⟨popped, hpop⟩)]
                  | cons f1v rest =>
                      cases f1v with
                      | function fcode fconsts params captured =>
                          rw [execute_call_step f pc n ch st h popped rest
                              fcode fconsts params captured hcode hpop] at hne ⊢
                          rw [execute_call_step g pc n ch st h popped rest
                              fcode fconsts params captured hcode hpop]
                          cases hrun : execute f ⟨fcode, fconsts⟩ 0
                              ⟨[], (h.allocEnv ⟨[], some (captured.getD st.env)⟩).1⟩
                              (bindParams params
                                (h.allocEnv ⟨[], some (captured.getD st.env)⟩).1 0
                                popped.reverse
                                (h.allocEnv ⟨[], some (captured.getD st.env)⟩).2) with
                          | ok v stc h3 =>
                              rw [hrun] at hne
                              rw [ih g hf _ _ _ _ (by rw [hrun]; simp), hrun]
                              exact ih g hf ch (pc + 1) ⟨v :: rest, st.env⟩ h3 hne
                          | err e2 stc h3 =>
                              rw [ih g hf _ _ _ _ (by rw [hrun]; simp), hrun]
                          | crash m =>
                              rw [ih g hf _ _ _ _ (by rw [hrun]; simp), hrun]
                          | timeout =>
                              rw [hrun] at hne
                              exact absurd rfl hne
                      | undefined =>
                          rw [execute_call_notfun f pc n ch st h popped rest _
                              hcode hpop (by intro a b c d hh; cases hh),
                            execute_call_notfun g pc n ch st h popped rest _
                              hcode hpop (by intro a b c d hh; cases hh)]
                      | null =>
                          rw [execute_call_notfun f pc n ch st h popped rest _
                              hcode hpop (by intro a b c d hh; cases hh),
                            execute_call_notfun g pc n ch st h popped rest _
                              hcode hpop (by intro a b c d hh; cases hh)]
                      | boolean b =>
                          rw [execute_call_notfun f pc n ch st h popped rest _
                              hcode hpop (by intro a b c d hh; cases hh),
                            execute_call_notfun g pc n ch st h popped rest _
                              hcode hpop (by intro a b c d hh; cases hh)]
                      | number nn =>
                          rw [execute_call_notfun f pc n ch st h popped rest _
                              hcode hpop (by intro a b c d hh; cases hh),
                            execute_call_notfun g pc n ch st h popped rest _
                              hcode hpop (by intro a b c d hh; cases hh)]
                      | string s =>
                          rw [execute_call_notfun f pc n ch st h popped rest _
                              hcode hpop (by intro a b c d hh; cases hh),
                            execute_call_notfun g pc n ch st h popped rest _
                              hcode hpop (by intro a b c d hh; cases hh)]
                      | object i =>
                          rw [execute_call_notfun f pc n ch st h popped rest _
                              hcode hpop (by intro a b c d hh; cases hh),
                            execute_call_notfun g pc n ch st h popped rest _
                              hcode hpop (by intro a b c d hh; cases hh)]
          | _ =>
              rw [execute_dispatch_step f pc ch st h op hcode
                (by subst hcall; simp)] at hne ⊢
              rw [execute_dispatch_step g pc ch st h op hcode
                (by subst hcall; simp)]
              cases hstep : stepSimple ch op st h with
              | next st2 h2 =>
                  rw [hstep] at hne
                  exact ih g hf ch (pc + 1) st2 h2 hne
              | jumpTo t st2 h2 =>
                  rw [hstep] at hne
                  exact ih g hf ch t st2 h2 hne
              | retWith v st2 h2 => rfl
              | fail e2 st2 h2 => rfl
              | crash m => rfl

/-! ## C10: determinism of evaluation on fresh engines -/

/-- C10: two runs of the same program on freshly constructed engines
(`VM::new`: empty stack, one fresh global environment) deliver
identical results — the full compile-and-execute pipeline is a pure
function of the program, and the result of a finished run does not
depend on the interpreter's fuel bound, the only parameter that can
vary between the two runs.  (The lexer and parser are pure collaborator
functions of the source string, so the program AST itself is the same
for both runs of one source.) -/
theorem eval_fresh_deterministic (p : Program) (f1 f2 : Nat)
    (h1 : evalFresh p f1 ≠ .timeout) (h2 : evalFresh p f2 ≠ .timeout) :
    evalFresh p f1 = evalFresh p f2 := by
  cases hcomp : compileProgram p with
  | error e => simp only [evalFresh, engineEval, hcomp]
  | ok ch =>
      simp only [evalFresh, engineEval, hcomp] at h1 h2 ⊢
      rcases Nat.le_total f1 f2 with hle | hle
      · exact (execute_mono f1 f2 hle ch 0 initSt initHeap h1).symm
      · exact execute_mono f2 f1 hle ch 0 initSt initHeap h2

/-- Witness for C10: `1 + 2` on two fresh engines with different fuel
bounds gives the same `Number 3`. -/
theorem eval_fresh_deterministic_witness :
    evalFresh ⟨[.expression (.binary .add (.literal (.number (.fin 1 false)))
        (.literal (.number (.fin 2 false))))]⟩ 10
      = evalFresh ⟨[.expression (.binary .add (.literal (.number (.fin 1 false)))
          (.literal (.number (.fin 2 false))))]⟩ 20 := by
  refine eval_fresh_deterministic _ 10 20 ?_ ?_
  · intro hcon
    rw [show evalFresh ⟨[.expression (.binary .add
        (.literal (.number (.fin 1 false)))
        (.literal (.number (.fin 2 false))))]⟩ 10
      = .ok (.number (.fin 3 false)) ⟨[], 0⟩ initHeap from rfl] at hcon
    cases hcon
  · intro hcon
    rw [show evalFresh ⟨[.expression (.binary .add
        (.literal (.number (.fin 1 false)))
        (.literal (.number (.fin 2 false))))]⟩ 20
      = .ok (.number (.fin 3 false)) ⟨[], 0⟩ initHeap from rfl] at hcon
    cases hcon

/-! ## Lemmas about constant interning -/

/-- `Chunk.emit` leaves the constant pool alone. -/
@[simp] theorem emit_constants (ch : Chunk) (op : Opcode) :
    (ch.emit op).constants = ch.constants := rfl

/-- A failed scan means no pool entry is `==`-equal to the candidate. -/
theorem findEqIdx_none (l : List JSValue) (v : JSValue) :
    ∀ k, findEqIdx l v k = none → ∀ c ∈ l, rustEq c v = false := by
  induction l with
  | nil => intro k _ c hc; cases hc
  | cons a rest ih =>
      intro k hf c hc
      simp only [findEqIdx] at hf
      by_cases ha : rustEq a v
      · simp [ha] at hf
      · rcases List.mem_cons.mp hc with rfl | hc
        · simpa using ha
        · exact ih (k + 1) (by simpa [ha] using hf) c hc

/-- A successful scan returns the index of an `==`-equal pool entry. -/
theorem findEqIdx_some (l : List JSValue) (v : JSValue) :
    ∀ k i, findEqIdx l v k = some i →
      ∃ d, i = k + d ∧ ∃ hlt : d < l.length, rustEq (l.get ⟨d, hlt⟩) v = true := by
  induction l with
  | nil => intro k i hf; simp [findEqIdx] at hf
  | cons a rest ih =>
      intro k i hf
      simp only [findEqIdx] at hf
      by_cases ha : rustEq a v
      · rw [if_pos ha] at hf
        cases hf
        exact ⟨0, by omega, by simpa using ha⟩
      · rw [if_neg ha] at hf
        obtain ⟨d, hd, hlt, hr⟩ := ih (k + 1) i hf
        exact ⟨d + 1, by omega, by simpa using hlt, by simpa using hr⟩

/-- When some pool entry is `==`-equal to the candidate, the scan
succeeds. -/
theorem findEqIdx_isSome (l : List JSValue) (v : JSValue)
    (hex : ∃ c ∈ l, rustEq c v = true) :
    ∀ k, (findEqIdx l v k).isSome := by
  intro k
  cases hf : findEqIdx l v k with
  | some i => rfl
  | none =>
      obtain ⟨c, hc, hr⟩ := hex
      rw [findEqIdx_none l v k hf c hc] at hr
      cases hr

/-- `add_constant` preserves the pairwise-distinct pool invariant. -/
theorem addConstant_interned (ch : Chunk) (v : JSValue)
    (hp : PoolInterned ch.constants) :
    PoolInterned (addConstant ch v).2.constants := by
  unfold addConstant
  cases hf : findEqIdx ch.constants v 0 with
  | some i => exact hp
  | none =>
      simp only [PoolInterned, List.pairwise_append]
      exact ⟨hp, List.pairwise_singleton _ v,
        fun a ha b hb => by
          rw [List.mem_singleton.mp hb]
          exact findEqIdx_none ch.constants v 0 hf a ha⟩

/-- `pure` in the compiler's `Except` monad. -/
@[simp] theorem except_pure_eq {α : Type} (a : α) :
    (pure a : Except JSErr α) = Except.ok a := rfl

/-- Bind on a successful compile step. -/
@[simp] theorem except_bind_ok {α β : Type} (a : α)
    (f : α → Except JSErr β) : (Except.ok a >>= f) = f a := rfl

/-- Bind on a failed compile step. -/
@[simp] theorem except_bind_error {α β : Type} (e : JSErr)
    (f : α → Except JSErr β) :
    ((Except.error e : Except JSErr α) >>= f) = Except.error e := rfl

mutual

/-- Compiling an expression preserves the interned-pool invariant. -/
theorem compileExpression_interned :
    ∀ (e : Expression) (ch ch2 : Chunk), PoolInterned ch.constants →
      compileExpression e ch = .ok ch2 → PoolInterned ch2.constants
  | .literal lit, ch, ch2, hp, hcomp => by
      simp only [compileExpression] at hcomp
      cases hcomp
      simpa using addConstant_interned ch (litValue lit) hp
  | .identifier name, ch, ch2, hp, hcomp => by
      simp only [compileExpression] at hcomp
      cases hcomp
      exact hp
  | .binary op l r, ch, ch2, hp, hcomp => by
      simp only [compileExpression] at hcomp
      cases hl : compileExpression l ch with
      | error e => rw [hl] at hcomp; cases hcomp
      | ok c1 =>
          rw [hl] at hcomp
          simp only [except_bind_ok] at hcomp
          cases hr : compileExpression r c1 with
          | error e => rw [hr] at hcomp; cases hcomp
          | ok c2 =>
              rw [hr] at hcomp
              simp only [except_bind_ok, except_pure_eq] at hcomp
              cases hcomp
              simpa using compileExpression_interned r c1 c2
                (compileExpression_interned l ch c1 hp hl) hr
  | .unary op arg, ch, ch2, hp, hcomp => by
      simp only [compileExpression] at hcomp
      cases ha : compileExpression arg ch with
      | error e => rw [ha] at hcomp; cases hcomp
      | ok c1 =>
          rw [ha] at hcomp
          simp only [except_bind_ok] at hcomp
          have hc1 := compileExpression_interned arg ch c1 hp ha
          cases op with
          | plus => cases hcomp; exact hc1
          | minus => cases hcomp; simpa using hc1
          | not => cases hcomp; simpa using hc1
          | bitNot => cases hcomp; simpa using hc1
          | typeof => cases hcomp; simpa using hc1
          | void => cases hcomp; simpa using hc1
          | delete => cases hcomp
  | .assignment l r, ch, ch2, hp, hcomp => by
      cases l with
      | identifier name =>
          simp only [compileExpression] at hcomp
          cases hr : compileExpression r ch with
          | error e => rw [hr] at hcomp; cases hcomp
          | ok c1 =>
              rw [hr] at hcomp
              simp only [except_bind_ok, except_pure_eq] at hcomp
              cases hcomp
              simpa using compileExpression_interned r ch c1 hp hr
      | memberAccess obj prop computed =>
          simp only [compileExpression] at hcomp
          cases ho : compileExpression obj ch with
          | error e => rw [ho] at hcomp; cases hcomp
          | ok c1 =>
              rw [ho] at hcomp
              simp only [except_bind_ok] at hcomp
              cases hpr : compileExpression prop c1 with
              | error e => rw [hpr] at hcomp; cases hcomp
              | ok c2 =>
                  rw [hpr] at hcomp
                  simp only [except_bind_ok] at hcomp
                  cases hr : compileExpression r c2 with
                  | error e => rw [hr] at hcomp; cases hcomp
                  | ok c3 =>
                      rw [hr] at hcomp
                      simp only [except_bind_ok, except_pure_eq] at hcomp
                      cases hcomp
                      simpa using compileExpression_interned r c2 c3
                        (compileExpression_interned prop c1 c2
                          (compileExpression_interned obj ch c1 hp ho) hpr) hr
      | literal lit => simp only [compileExpression] at hcomp; cases hcomp
      | binary op l2 r2 => simp only [compileExpression] at hcomp; cases hcomp
      | unary op a2 => simp only [compileExpression] at hcomp; cases hcomp
      | assignment l2 r2 => simp only [compileExpression] at hcomp; cases hcomp
      | arrayLiteral es => simp only [compileExpression] at hcomp; cases hcomp
      | objectLiteral ps => simp only [compileExpression] at hcomp; cases hcomp
      | call c2 a2 => simp only [compileExpression] at hcomp; cases hcomp
      | function p2 b2 => simp only [compileExpression] at hcomp; cases hcomp
  | .arrayLiteral elems, ch, ch2, hp, hcomp => by
      simp only [compileExpression] at hcomp
      exact compileArrayElems_interned elems 0 (ch.emit (.newArray 0)) ch2
        (by simpa using hp) hcomp
  | .objectLiteral props, ch, ch2, hp, hcomp => by
      simp only [compileExpression] at hcomp
      exact compileObjectProps_interned props (ch.emit .newObject) ch2
        (by simpa using hp) hcomp
  | .memberAccess obj prop computed, ch, ch2, hp, hcomp => by
      simp only [compileExpression] at hcomp
      cases ho : compileExpression obj ch with
      | error e => rw [ho] at hcomp; cases hcomp
      | ok c1 =>
          rw [ho] at hcomp
          simp only [except_bind_ok] at hcomp
          cases hpr : compileExpression prop c1 with
          | error e => rw [hpr] at hcomp; cases hcomp
          | ok c2 =>
              rw [hpr] at hcomp
              simp only [except_bind_ok, except_pure_eq] at hcomp
              cases hcomp
              simpa using compileExpression_interned prop c1 c2
                (compileExpression_interned obj ch c1 hp ho) hpr
  | .call callee args, ch, ch2, hp, hcomp => by
      simp only [compileExpression] at hcomp
      cases hc : compileExpression callee ch with
      | error e => rw [hc] at hcomp; cases hcomp
      | ok c1 =>
          rw [hc] at hcomp
          simp only [except_bind_ok] at hcomp
          cases hargs : compileCallArgs args c1 with
          | error e => rw [hargs] at hcomp; cases hcomp
          | ok c2 =>
              rw [hargs] at hcomp
              simp only [except_bind_ok, except_pure_eq] at hcomp
              cases hcomp
              simpa using compileCallArgs_interned args c1 c2
                (compileExpression_interned callee ch c1 hp hc) hargs
  | .function params body, ch, ch2, hp, hcomp => by
      simp only [compileExpression] at hcomp
      cases hsub : compileStmts body ⟨[], []⟩ with
      | error e => rw [hsub] at hcomp; cases hcomp
      | ok sub =>
          rw [hsub] at hcomp
          simp only [except_bind_ok, except_pure_eq] at hcomp
          cases hcomp
          simpa using addConstant_interned ch
            (.function sub.code sub.constants params none) hp

/-- The array-literal loop preserves the interned-pool invariant. -/
theorem compileArrayElems_interned :
    ∀ (es : List Expression) (i : Nat) (ch ch2 : Chunk),
      PoolInterned ch.constants → compileArrayElems es i ch = .ok ch2 →
      PoolInterned ch2.constants
  | [], i, ch, ch2, hp, hcomp => by
      simp only [compileArrayElems] at hcomp
      cases hcomp
      exact hp
  | e :: rest, i, ch, ch2, hp, hcomp => by
      simp only [compileArrayElems] at hcomp
      cases he : compileExpression e ch with
      | error e2 => rw [he] at hcomp; cases hcomp
      | ok c1 =>
          rw [he] at hcomp
          simp only [except_bind_ok] at hcomp
          have hpool := addConstant_interned c1 (.number (.fin (i : ℚ) false))
            (compileExpression_interned e ch c1 hp he)
          exact compileArrayElems_interned rest (i + 1) _ ch2
            (by simpa using hpool) hcomp

/-- The object-literal loop preserves the interned-pool invariant. -/
theorem compileObjectProps_interned :
    ∀ (ps : List (String × Expression)) (ch ch2 : Chunk),
      PoolInterned ch.constants → compileObjectProps ps ch = .ok ch2 →
      PoolInterned ch2.constants
  | [], ch, ch2, hp, hcomp => by
      simp only [compileObjectProps] at hcomp
      cases hcomp
      exact hp
  | (key, value) :: rest, ch, ch2, hp, hcomp => by
      simp only [compileObjectProps] at hcomp
      cases hv : compileExpression value ch with
      | error e2 => rw [hv] at hcomp; cases hcomp
      | ok c1 =>
          rw [hv] at hcomp
          simp only [except_bind_ok] at hcomp
          have hpool := addConstant_interned c1 (.string key)
            (compileExpression_interned value ch c1 hp hv)
          exact compileObjectProps_interned rest _ ch2
            (by simpa using hpool) hcomp

/-- The call-argument loop preserves the interned-pool invariant. -/
theorem compileCallArgs_interned :
    ∀ (args : List Expression) (ch ch2 : Chunk),
      PoolInterned ch.constants → compileCallArgs args ch = .ok ch2 →
      PoolInterned ch2.constants
  | [], ch, ch2, hp, hcomp => by
      simp only [compileCallArgs] at hcomp
      cases hcomp
      exact hp
  | a :: rest, ch, ch2, hp, hcomp => by
      simp only [compileCallArgs] at hcomp
      cases ha : compileExpression a ch with
      | error e2 => rw [ha] at hcomp; cases hcomp
      | ok c1 =>
          rw [ha] at hcomp
          simp only [except_bind_ok] at hcomp
          exact compileCallArgs_interned rest c1 ch2
            (compileExpression_interned a ch c1 hp ha) hcomp

/-- Compiling a statement preserves the interned-pool invariant. -/
theorem compileStatement_interned :
    ∀ (s : Statement) (isLast : Bool) (ch ch2 : Chunk),
      PoolInterned ch.constants → compileStatement s isLast ch = .ok ch2 →
      PoolInterned ch2.constants
  | .expression e, isLast, ch, ch2, hp, hcomp => by
      simp only [compileStatement] at hcomp
      cases he : compileExpression e ch with
      | error e2 => rw [he] at hcomp; cases hcomp
      | ok c1 =>
          rw [he] at hcomp
          simp only [except_bind_ok] at hcomp
          have hc1 := compileExpression_interned e ch c1 hp he
          cases isLast with
          | true => cases hcomp; exact hc1
          | false => cases hcomp; simpa using hc1
  | .variableDeclaration kind name init, isLast, ch, ch2, hp, hcomp => by
      cases init with
      | some e =>
          simp only [compileStatement] at hcomp
          cases he : compileExpression e ch with
          | error e2 => rw [he] at hcomp; cases hcomp
          | ok c1 =>
              rw [he] at hcomp
              simp only [except_bind_ok] at hcomp
              have hc1 := compileExpression_interned e ch c1 hp he
              cases isLast with
              | true =>
                  cases hcomp
                  simpa using addConstant_interned (c1.emit (.storeVar name))
                    .undefined (by simpa using hc1)
              | false => cases hcomp; simpa using hc1
      | none =>
          simp only [compileStatement, except_bind_ok, except_pure_eq] at hcomp
          have hc1 := addConstant_interned ch .undefined hp
          cases isLast with
          | true =>
              cases hcomp
              simpa using addConstant_interned
                (((addConstant ch .undefined).2.emit
                  (.loadConst (addConstant ch .undefined).1)).emit
                  (.storeVar name)) .undefined (by simpa using hc1)
          | false => cases hcomp; simpa using hc1
  | .ret e, isLast, ch, ch2, hp, hcomp => by
      cases e with
      | some ex =>
          simp only [compileStatement] at hcomp
          cases he : compileExpression ex ch with
          | error e2 => rw [he] at hcomp; cases hcomp
          | ok c1 =>
              rw [he] at hcomp
              simp only [except_bind_ok, except_pure_eq] at hcomp
              cases hcomp
              simpa using compileExpression_interned ex ch c1 hp he
      | none =>
          simp only [compileStatement, except_bind_ok, except_pure_eq] at hcomp
          cases hcomp
          simpa using addConstant_interned ch .undefined hp
  | .functionDeclaration name params body, isLast, ch, ch2, hp, hcomp => by
      simp only [compileStatement] at hcomp
      cases hsub : compileStmts body ⟨[], []⟩ with
      | error e => rw [hsub] at hcomp; cases hcomp
      | ok sub =>
          rw [hsub] at hcomp
          simp only [except_bind_ok, except_pure_eq] at hcomp
          cases hcomp
          simpa using addConstant_interned ch
            (.function sub.code sub.constants params none) hp

/-- The statement loop preserves the interned-pool invariant. -/
theorem compileStmts_interned :
    ∀ (ss : List Statement) (ch ch2 : Chunk),
      PoolInterned ch.constants → compileStmts ss ch = .ok ch2 →
      PoolInterned ch2.constants
  | [], ch, ch2, hp, hcomp => by
      simp only [compileStmts] at hcomp
      cases hcomp
      exact hp
  | [s], ch, ch2, hp, hcomp => by
      simp only [compileStmts] at hcomp
      exact compileStatement_interned s true ch ch2 hp hcomp
  | s :: s2 :: rest, ch, ch2, hp, hcomp => by
      simp only [compileStmts] at hcomp
      cases hs : compileStatement s false ch with
      | error e => rw [hs] at hcomp; cases hcomp
      | ok c1 =>
          rw [hs] at hcomp
          simp only [except_bind_ok] at hcomp
          exact compileStmts_interned (s2 :: rest) c1 ch2
            (compileStatement_interned s false ch c1 hp hs) hcomp

end

/-- IEEE equality is symmetric. -/
theorem ieeeEq_symm (a b : JSNum) : a.ieeeEq b = b.ieeeEq a := by
  cases a <;> cases b <;> simp [JSNum.ieeeEq, beq_iff_eq] <;> exact eq_comm

/-- Strict equality is symmetric. -/
theorem strictEquals_symm (a b : JSValue) :
    a.strictEquals b = b.strictEquals a := by
  cases a <;> cases b <;>
    simp [JSValue.strictEquals, beq_iff_eq, ieeeEq_symm] <;> exact eq_comm

/-- On the primitive variants, the interning equality (`==`, derived
`PartialEq` with IEEE numbers) coincides with `strict_equals`. -/
theorem prim_rustEq_eq_strictEquals (a b : JSValue)
    (ha : a.isPrim = true) (hb : b.isPrim = true) :
    rustEq a b = a.strictEquals b := by
  cases a <;> cases b <;>
    simp_all [JSValue.isPrim, rustEq, JSValue.strictEquals]

/-! ## C5: the constant pool is interned -/

/-- C5: `add_constant` returns the index of an existing `==`-equal
constant (leaving the pool unchanged) when one exists, and otherwise
appends the value and returns the new index; consequently, in the
constant pool of every chunk the compiler produces, no two distinct
indices hold primitive values that are equal under StrictEquals.  (The
interning equality on numbers is IEEE `==`, so a NaN never matches an
existing NaN and duplicate NaN constants can occur, but NaN is not
StrictEquals-equal to anything, and `+0 == -0` means the pool never
holds both zeros — the invariant is unharmed either way.) -/
theorem constant_pool_interned :
    (∀ (ch : Chunk) (v : JSValue), (∃ c ∈ ch.constants, rustEq c v = true) →
      (addConstant ch v).2 = ch ∧
      ∃ hlt : (addConstant ch v).1 < ch.constants.length,
        rustEq (ch.constants.get ⟨(addConstant ch v).1, hlt⟩) v = true) ∧
    (∀ (ch : Chunk) (v : JSValue), (∀ c ∈ ch.constants, rustEq c v = false) →
      addConstant ch v
        = (ch.constants.length, { ch with constants := ch.constants ++ [v] })) ∧
    (∀ (p : Program) (ch : Chunk), compileProgram p = .ok ch →
      ∀ (i j : Nat) (hi : i < ch.constants.length)
        (hj : j < ch.constants.length), i ≠ j →
        (ch.constants.get ⟨i, hi⟩).isPrim = true →
        (ch.constants.get ⟨j, hj⟩).isPrim = true →
        (ch.constants.get ⟨i, hi⟩).strictEquals (ch.constants.get ⟨j, hj⟩)
          = false) := by
  refine ⟨?_, ?_, ?_⟩
  · intro ch v hex
    unfold addConstant
    cases hf : findEqIdx ch.constants v 0 with
    | none =>
        have := findEqIdx_isSome ch.constants v hex 0
        rw [hf] at this
        cases this
    | some i =>
        obtain ⟨d, hd, hlt, hr⟩ := findEqIdx_some ch.constants v 0 i hf
        have hid : i = d := by omega
        subst hid
        exact ⟨rfl, hlt, hr⟩
  · intro ch v hall
    unfold addConstant
    cases hf : findEqIdx ch.constants v 0 with
    | none => rfl
    | some i =>
        obtain ⟨d, hd, hlt, hr⟩ := findEqIdx_some ch.constants v 0 i hf
        rw [hall _ (List.get_mem ch.constants d hlt)] at hr
        cases hr
  · intro p ch hcomp i j hi hj hne hpi hpj
    have hpool : PoolInterned ch.constants :=
      compileStmts_interned p.body ⟨[], []⟩ ch List.Pairwise.nil hcomp
    rw [PoolInterned, List.pairwise_iff_getElem] at hpool
    rcases Nat.lt_or_ge i j with hij | hij
    · have := hpool i j hi hj hij
      rw [prim_rustEq_eq_strictEquals _ _ (by simpa using hpi)
        (by simpa using hpj)] at this
      simpa using this
    · have hji : j < i := by omega
      have := hpool j i hj hi hji
      rw [prim_rustEq_eq_strictEquals _ _ (by simpa using hpj)
        (by simpa using hpi)] at this
      rw [strictEquals_symm] at this
      simpa using this

/-- Witness for C5: a hit at an existing `Number 1` constant returns
index 0 with the pool unchanged, and in the compiled pool of `1 + 2`
the two (primitive) constants are not strict-equal. -/
theorem constant_pool_interned_witness :
    addConstant ⟨[], [.number (.fin 1 false)]⟩ (.number (.fin 1 false))
      = (0, ⟨[], [.number (.fin 1 false)]⟩) ∧
    (JSValue.number (.fin 1 false)).strictEquals (.number (.fin 2 false))
      = false := by
  constructor
  · have h1 := constant_pool_interned.1 ⟨[], [.number (.fin 1 false)]⟩
      (.number (.fin 1 false))
      ⟨.number (.fin 1 false), by simp, by decide⟩
    have h2 : (addConstant ⟨[], [.number (.fin 1 false)]⟩
      (.number (.fin 1 false))).1 = 0 := by decide
    have h3 := h1.1
    exact Prod.ext h2 h3
  · have h4 := constant_pool_interned.2.2
      ⟨[.expression (.binary .add (.literal (.number (.fin 1 false)))
        (.literal (.number (.fin 2 false))))]⟩
      ⟨[.loadConst 0, .loadConst 1, .add],
        [.number (.fin 1 false), .number (.fin 2 false)]⟩
      rfl 0 1 (by simp) (by simp) (by omega) rfl rfl
    simpa using h4

/-! ## Lemmas for the array-literal analysis -/

/-- What `add_constant` leaves behind: the returned index reads back a
value that is the candidate itself or `==`-equal to it, existing pool
reads are stable, and the code is untouched. -/
theorem addConstant_lookup (ch : Chunk) (v : JSValue) :
    (∃ w, (addConstant ch v).2.constants[(addConstant ch v).1]? = some w ∧
      (w = v ∨ rustEq w v = true)) ∧
    (∀ (i : Nat) (x : JSValue), ch.constants[i]? = some x →
      (addConstant ch v).2.constants[i]? = some x) ∧
    (addConstant ch v).2.code = ch.code := by
  unfold addConstant
  cases hf : findEqIdx ch.constants v 0 with
  | some i =>
      obtain ⟨d, hd, hlt, hr⟩ := findEqIdx_some ch.constants v 0 i hf
      have hid : i = d := by omega
      subst hid
      refine ⟨⟨ch.constants.get ⟨i, hlt⟩, ?_, Or.inr hr⟩,
        fun i2 x hx => hx, rfl⟩
      simp [List.getElem?_eq_getElem hlt]
  | none =>
      refine ⟨⟨v, ?_, Or.inl rfl⟩, ?_, rfl⟩
      · simp
      · intro i x hx
        have hi : i < ch.constants.length := by
          by_contra hcon
          rw [List.getElem?_eq_none (Nat.le_of_not_lt hcon)] at hx
          cases hx
        rw [List.getElem?_append_left hi]
        exact hx

/-- The `as usize` cast of the Number holding a natural index below the
`usize` bound gives that index back. -/
theorem toUsizeSat_finNat (k : Nat) (nz : Bool) (hk : k ≤ 2 ^ 64 - 1) :
    JSNum.toUsizeSat (.fin (k : ℚ) nz) = k := by
  have hnum : ((k : ℚ)).num = (k : Int) := Rat.num_natCast k
  have hden : ((k : ℚ)).den = 1 := Rat.den_natCast k
  simp only [JSNum.toUsizeSat, JSNum.ratTrunc, hnum, hden]
  have ht : (k : Int).tdiv (1 : Nat) = (k : Int) := Int.tdiv_one _
  rw [ht]
  have h1 : ¬ ((k : Int) < 0) := by omega
  have h2 : ¬ ((k : Int) > 2 ^ 64 - 1) := by omega
  norm_num at hk
  simp [h1, h2]
  omega

/-- A value `==`-equal to a finite Number is a finite Number of the same
rational (only the zero sign can differ). -/
theorem rustEq_number_inv (w : JSValue) (q : ℚ) (nz0 : Bool)
    (hr : rustEq w (.number (.fin q nz0)) = true) :
    ∃ nz, w = .number (.fin q nz) := by
  cases w with
  | number n =>
      cases n with
      | fin q2 nz2 =>
          simp only [rustEq, JSNum.ieeeEq, beq_iff_eq] at hr
          exact ⟨nz2, by rw [hr]⟩
      | nan => simp [rustEq, JSNum.ieeeEq] at hr
      | inf s => simp [rustEq, JSNum.ieeeEq] at hr
  | undefined => simp [rustEq] at hr
  | null => simp [rustEq] at hr
  | boolean b => simp [rustEq] at hr
  | string s => simp [rustEq] at hr
  | object i => simp [rustEq] at hr
  | function a b c d => simp [rustEq] at hr

/-- Association lookup through an append, left side missing. -/
theorem alLookup_append_of_none {α : Type} (l1 l2 : List (String × α))
    (k : String) (h : alLookup l1 k = none) :
    alLookup (l1 ++ l2) k = alLookup l2 k := by
  induction l1 with
  | nil => rfl
  | cons p rest ih =>
      obtain ⟨k1, v1⟩ := p
      simp only [alLookup] at h ⊢
      by_cases hk : k1 = k
      · simp [hk] at h
      · simp only [hk, if_false] at h ⊢
        exact ih h

/-- Association lookup through an append, left side present. -/
theorem alLookup_append_of_some {α : Type} (l1 l2 : List (String × α))
    (k : String) (v : α) (h : alLookup l1 k = some v) :
    alLookup (l1 ++ l2) k = some v := by
  induction l1 with
  | nil => cases h
  | cons p rest ih =>
      obtain ⟨k1, v1⟩ := p
      simp only [alLookup] at h ⊢
      by_cases hk : k1 = k
      · simpa [hk] using h
      · simp only [hk, if_false] at h ⊢
        exact ih h

/-- The code point of a decimal digit character. -/
theorem digitCh_toNat (d : Nat) (hd : d < 10) : (digitCh d).toNat = 48 + d := by
  interval_cases d <;> rfl

/-- Decimal digit characters satisfy `isDigit`. -/
theorem digitCh_isDigit (d : Nat) (hd : d < 10) : (digitCh d).isDigit = true := by
  interval_cases d <;> rfl

/-- Evaluating the little-endian digit string recovers the number. -/
theorem decValLE_digits :
    ∀ (fuel n : Nat), n < fuel → decValLE (natDigitsLEAux fuel n) = n := by
  intro fuel
  induction fuel with
  | zero => intro n h; omega
  | succ f ih =>
      intro n hn
      simp only [natDigitsLEAux]
      by_cases h10 : n < 10
      · simp only [h10, if_true, decValLE]
        rw [digitCh_toNat n h10]
        omega
      · simp only [h10, if_false, decValLE]
        rw [digitCh_toNat (n % 10) (Nat.mod_lt n (by omega))]
        rw [ih (n / 10) (by omega)]
        omega

/-- Every character the digit printer emits is a decimal digit. -/
theorem natDigitsLEAux_all_digit :
    ∀ (fuel n : Nat) (c : Char), c ∈ natDigitsLEAux fuel n →
      c.isDigit = true := by
  intro fuel
  induction fuel with
  | zero => intro n c hc; cases hc
  | succ f ih =>
      intro n c hc
      simp only [natDigitsLEAux] at hc
      by_cases h10 : n < 10
      · simp only [h10, if_true, List.mem_singleton] at hc
        subst hc
        exact digitCh_isDigit n h10
      · simp only [h10, if_false, List.mem_cons] at hc
        rcases hc with rfl | hc
        · exact digitCh_isDigit (n % 10) (Nat.mod_lt n (by omega))
        · exact ih (n / 10) c hc

/-- The decimal rendering of naturals is injective. -/
theorem natDecimal_inj (a b : Nat) (h : natDecimal a = natDecimal b) :
    a = b := by
  have hdata : (natDigitsLE a).reverse = (natDigitsLE b).reverse :=
    congrArg String.data h
  have hdig : natDigitsLE a = natDigitsLE b :=
    List.reverse_injective hdata
  have ha := decValLE_digits (a + 1) a (by omega)
  have hb := decValLE_digits (b + 1) b (by omega)
  simp only [natDigitsLE] at hdig
  rw [← ha, ← hb, hdig]

/-- A decimal rendering is never the string "length". -/
theorem natDecimal_ne_length (n : Nat) : natDecimal n ≠ "length" := by
  intro h
  have hdata : (natDigitsLE n).reverse = "length".data := congrArg String.data h
  have hmem : 'l' ∈ natDigitsLE n := by
    rw [← List.mem_reverse, hdata]
    decide
  have := natDigitsLEAux_all_digit (n + 1) n 'l' hmem
  exact absurd this (by decide)

/-- Looking up a stringified index in the pushed-property list. -/
theorem alLookup_arrPropsW :
    ∀ (ws : List JSValue) (k d : Nat) (hd : d < ws.length),
      alLookup (arrPropsW ws k) (natDecimal (k + d))
        = some (PropDesc.data (ws.get ⟨d, hd⟩)) := by
  intro ws
  induction ws with
  | nil => intro k d hd; simp at hd
  | cons w rest ih =>
      intro k d hd
      cases d with
      | zero => simp [arrPropsW, alLookup]
      | succ d2 =>
          have hne : natDecimal k ≠ natDecimal (k + (d2 + 1)) :=
            fun hcon => by have := natDecimal_inj _ _ hcon; omega
          simp only [arrPropsW, alLookup, hne, if_false]
          have hEq : k + (d2 + 1) = (k + 1) + d2 := by omega
          rw [hEq]
          exact ih (k + 1) d2 (by simpa using hd)

/-- `Chunk.emit` appends exactly one instruction. -/
@[simp] theorem emit_code (ch : Chunk) (op : Opcode) :
    (ch.emit op).code = ch.code ++ [op] := rfl

/-- Shape of the code and pool the array-literal loop produces for a
list of literal elements: compilation succeeds, appends three
instructions per element, leaves existing code and pool entries
readable, and the generated stretch `EncodesElems` a value list `ws`
whose entries are the element values themselves or their `==`-equal
interned representatives. -/
theorem compileArrayElems_shape :
    ∀ (lits : List Literal) (k : Nat) (ch : Chunk),
      ∃ (ch2 : Chunk) (ws : List JSValue),
        compileArrayElems (lits.map .literal) k ch = .ok ch2 ∧
        ch2.code.length = ch.code.length + 3 * lits.length ∧
        (∀ (i : Nat) (x : Opcode), ch.code[i]? = some x → ch2.code[i]? = some x) ∧
        (∀ (i : Nat) (x : JSValue), ch.constants[i]? = some x →
          ch2.constants[i]? = some x) ∧
        ws.length = lits.length ∧
        (∀ (i : Nat) (hi : i < lits.length) (hw : i < ws.length),
          ws.get ⟨i, hw⟩ = litValue (lits.get ⟨i, hi⟩) ∨
          rustEq (ws.get ⟨i, hw⟩) (litValue (lits.get ⟨i, hi⟩)) = true) ∧
        EncodesElems ch2 ch.code.length k ws := by
  intro lits
  induction lits with
  | nil =>
      intro k ch
      refine ⟨ch, [], rfl, by simp, fun i x hx => hx, fun i x hx => hx, rfl,
        ?_, trivial⟩
      intro i hi hw
      simp at hi
  | cons l rest ih =>
      intro k ch
      obtain ⟨⟨w, hwlook, hwrel⟩, hstab1, hcode1⟩ :=
        addConstant_lookup ch (litValue l)
      rcases hA1 : addConstant ch (litValue l) with ⟨A, P2⟩
      rw [hA1] at hwlook hstab1 hcode1
      simp only at hwlook hstab1 hcode1
      obtain ⟨⟨wb, hblook, hbrel⟩, hstab2, hcode2⟩ :=
        addConstant_lookup (P2.emit (.loadConst A)) (.number (.fin (k : ℚ) false))
      rcases hB1 : addConstant (P2.emit (.loadConst A)) (.number (.fin (k : ℚ) false))
        with ⟨B, P3⟩
      rw [hB1] at hblook hstab2 hcode2
      simp only at hblook hstab2 hcode2
      obtain ⟨ch2, ws2, hrun, hlen, hcodes, hconsts, hwslen, hwsrel, hEnc⟩ :=
        ih (k + 1) ((P3.emit (.loadConst B)).emit .arrayPush)
      have hc3code : ((P3.emit (.loadConst B)).emit .arrayPush).code
          = ch.code ++ [.loadConst A, .loadConst B, .arrayPush] := by
        simp [hcode2, hcode1]
      have hc3len : ((P3.emit (.loadConst B)).emit .arrayPush).code.length
          = ch.code.length + 3 := by
        rw [hc3code]; simp
      have hc3get : ∀ (j : Nat) (x : Opcode),
          [Opcode.loadConst A, Opcode.loadConst B, Opcode.arrayPush][j]? = some x →
          ch2.code[ch.code.length + j]? = some x := by
        intro j x hj
        apply hcodes
        rw [hc3code, List.getElem?_append_right (by omega)]
        simpa using hj
      have hconstStep : ∀ (i : Nat) (x : JSValue),
          P3.constants[i]? = some x → ch2.constants[i]? = some x := by
        intro i x hx
        exact hconsts i x (by simpa using hx)
      refine ⟨ch2, w :: ws2, ?_, ?_, ?_, ?_, ?_, ?_, ?_⟩
      · simp only [List.map_cons, compileArrayElems, compileExpression, hA1,
          except_bind_ok, hB1]
        exact hrun
      · rw [hlen, hc3len]
        simp
        omega
      · intro i x hx
        have hi : i < ch.code.length := by
          by_contra hcon
          rw [List.getElem?_eq_none (Nat.le_of_not_lt hcon)] at hx
          cases hx
        apply hcodes
        rw [hc3code, List.getElem?_append_left hi]
        exact hx
      · intro i x hx
        exact hconstStep i x (hstab2 i x (by simpa using hstab1 i x hx))
      · simpa using hwslen
      · intro i hi hw
        cases i with
        | zero => exact hwrel
        | succ i2 =>
            exact hwsrel i2 (by simpa using hi) (by simpa using hw)
      · refine ⟨⟨A, hc3get 0 _ (by simp), ?_⟩, ?_, hc3get 2 _ (by simp), ?_⟩
        · exact hconstStep A w (hstab2 A w (by simpa using hwlook))
        · rcases hbrel with hbeq | hbeq
          · subst hbeq
            exact ⟨B, false, by simpa using hc3get 1 _ (by simp),
              hconstStep B _ hblook⟩
          · obtain ⟨nz, hnz⟩ := rustEq_number_inv wb (k : ℚ) false hbeq
            subst hnz
            exact ⟨B, nz, by simpa using hc3get 1 _ (by simp),
              hconstStep B _ hblook⟩
        · rw [← hc3len]
          exact hEnc

/-- Writing back the record an index already holds is a no-op. -/
theorem list_set_self {α : Type} (l : List α) (i : Nat) (x : α)
    (h : l[i]? = some x) : l.set i x = l := by
  have hi : i < l.length := by
    by_contra hc
    rw [List.getElem?_eq_none (Nat.le_of_not_lt hc)] at h
    cases h
  apply List.ext_getElem?
  intro n
  by_cases hn : n = i
  · subst hn
    rw [List.getElem?_set_eq hi, h]
  · rw [List.getElem?_set_ne (fun hh => hn hh.symm)]

/-- Reading an updated object heap: the written record, or the old one. -/
theorem getObj_setObj (h : Heap) (j : Nat) (o : ObjRec) (i : Nat)
    (hj : j < h.objs.length) :
    (h.setObj j o).getObj i = if i = j then some o else h.getObj i := by
  by_cases hij : i = j
  · subst hij
    simp [Heap.getObj, Heap.setObj, List.getElem?_set_eq hj]
  · simp [Heap.getObj, Heap.setObj,
      List.getElem?_set_ne (fun hh => hij hh.symm), hij]

/-- Running the `LoadConst`/`LoadConst`/`ArrayPush` stretch the
array-literal lowering generated: with the array object on the stack
top, each element round appends one stringified-index data property to
the object, leaving stack and environment as they were. -/
theorem run_array_elems :
    ∀ (ws : List JSValue) (k p : Nat) (ch : Chunk) (aid : Nat)
      (below : List JSValue) (E : Nat) (props : List (String × PropDesc))
      (proto : Option Nat) (h : Heap) (fuel : Nat),
      EncodesElems ch p k ws →
      k + ws.length ≤ 2 ^ 64 →
      h.getObj aid = some ⟨props, proto⟩ →
      (∀ m, k ≤ m → m < k + ws.length → alLookup props (natDecimal m) = none) →
      execute (3 * ws.length + fuel) ch p ⟨.object aid :: below, E⟩ h
        = execute fuel ch (p + 3 * ws.length) ⟨.object aid :: below, E⟩
            (h.setObj aid ⟨props ++ arrPropsW ws k, proto⟩) := by
  intro ws
  induction ws with
  | nil =>
      intro k p ch aid below E props proto h fuel hEnc hbound hobj hfresh
      have hset : h.setObj aid ⟨props ++ arrPropsW [] k, proto⟩ = h := by
        have he : arrPropsW ([] : List JSValue) k = [] := rfl
        rw [he, List.append_nil]
        simp only [Heap.setObj]
        rw [list_set_self h.objs aid ⟨props, proto⟩ hobj]
      rw [hset]
      simp
  | cons w rest ih =>
      intro k p ch aid below E props proto h fuel hEnc hbound hobj hfresh
      obtain ⟨⟨a, hca, hcona⟩, ⟨b, nz, hcb, hconb⟩, hcp2, hencrest⟩ := hEnc
      have haid : aid < h.objs.length := by
        by_contra hc
        simp [Heap.getObj, List.getElem?_eq_none (Nat.le_of_not_lt hc)] at hobj
      have hkbound : k ≤ 2 ^ 64 - 1 := by simp at hbound; omega
      -- step 1: LoadConst of the element value
      have hstep1 : execute (3 * (w :: rest).length + fuel) ch p
          ⟨.object aid :: below, E⟩ h
          = execute (3 * rest.length + 2 + fuel) ch (p + 1)
              ⟨w :: .object aid :: below, E⟩ h := by
        have harith : 3 * (w :: rest).length + fuel
            = (3 * rest.length + 2 + fuel) + 1 := by simp; omega
        rw [harith, execute_dispatch_step _ _ _ _ _ _ hca (by simp)]
        simp [stepSimple, hcona]
      -- step 2: LoadConst of the index
      have hstep2 : execute (3 * rest.length + 2 + fuel) ch (p + 1)
          ⟨w :: .object aid :: below, E⟩ h
          = execute (3 * rest.length + 1 + fuel) ch (p + 2)
              ⟨.number (.fin (k : ℚ) nz) :: w :: .object aid :: below, E⟩ h := by
        have harith : 3 * rest.length + 2 + fuel
            = (3 * rest.length + 1 + fuel) + 1 := by omega
        rw [harith, execute_dispatch_step _ _ _ _ _ _ hcb (by simp)]
        simp [stepSimple, hconb]
      -- step 3: ArrayPush
      have hkey : natDecimal (JSNum.toUsizeSat
          (JSValue.toNumber (.number (.fin (k : ℚ) nz)))) = natDecimal k := by
        rw [show JSValue.toNumber (.number (.fin (k : ℚ) nz))
          = .fin (k : ℚ) nz from rfl]
        rw [toUsizeSat_finNat k nz hkbound]
      have hlookfresh : alLookup props (natDecimal k) = none :=
        hfresh k (Nat.le_refl k) (by simp)
      have hstep3 : execute (3 * rest.length + 1 + fuel) ch (p + 2)
          ⟨.number (.fin (k : ℚ) nz) :: w :: .object aid :: below, E⟩ h
          = execute (3 * rest.length + fuel) ch (p + 3)
              ⟨.object aid :: below, E⟩
              (h.setObj aid ⟨props ++ [(natDecimal k, PropDesc.data w)],
                proto⟩) := by
        have harith : 3 * rest.length + 1 + fuel
            = (3 * rest.length + fuel) + 1 := by omega
        rw [harith, execute_dispatch_step _ _ _ _ _ _ hcp2 (by simp)]
        simp only [stepSimple, hkey, objSet, hobj, hlookfresh]
      rw [hstep1, hstep2, hstep3]
      -- recurse
      have hobj2 : (h.setObj aid ⟨props ++ [(natDecimal k, PropDesc.data w)],
          proto⟩).getObj aid
          = some ⟨props ++ [(natDecimal k, PropDesc.data w)], proto⟩ := by
        rw [getObj_setObj _ _ _ _ haid]
        simp
      have hfresh2 : ∀ m, k + 1 ≤ m → m < (k + 1) + rest.length →
          alLookup (props ++ [(natDecimal k, PropDesc.data w)]) (natDecimal m)
            = none := by
        intro m hm1 hm2
        rw [alLookup_append_of_none _ _ _
          (hfresh m (by omega) (by simp; omega))]
        have hne : natDecimal k ≠ natDecimal m :=
          fun hcon => by have := natDecimal_inj _ _ hcon; omega
        simp [alLookup, hne]
      have hrec := ih (k + 1) (p + 3) ch aid below E
        (props ++ [(natDecimal k, PropDesc.data w)]) proto
        (h.setObj aid ⟨props ++ [(natDecimal k, PropDesc.data w)], proto⟩) fuel
        hencrest (by simp at hbound ⊢; omega) hobj2 hfresh2
      rw [hrec]
      have hpos : (p + 3) + 3 * rest.length = p + 3 * (w :: rest).length := by
        simp; omega
      have hheap : (h.setObj aid ⟨props ++ [(natDecimal k, PropDesc.data w)],
            proto⟩).setObj aid
            ⟨(props ++ [(natDecimal k, PropDesc.data w)])
              ++ arrPropsW rest (k + 1), proto⟩
          = h.setObj aid ⟨props ++ arrPropsW (w :: rest) k, proto⟩ := by
        simp only [Heap.setObj, List.set_set]
        have : (props ++ [(natDecimal k, PropDesc.data w)])
            ++ arrPropsW rest (k + 1)
            = props ++ arrPropsW (w :: rest) k := by
          rw [List.append_assoc]
          rfl
        rw [this]
      rw [hpos, hheap]

/-- C1 (counterexample to the original claim): evaluating the
one-element array literal `[10]` yields an object whose `length`
property is the Number 0, not the element count 1 — `NewArray`
initialises `length` to 0 and `ArrayPush` (`JSArray::push` through
`to_object`) never updates it. -/
theorem array_literal_length_counterexample :
    resultObjProp (evalFresh (arrayLiteralProg [.number (.fin 10 false)]) 100)
        "length" = some (.number (.fin 0 false)) ∧
    resultObjProp (evalFresh (arrayLiteralProg [.number (.fin 10 false)]) 100)
        "length" ≠ some (.number (.fin 1 false)) := by
  constructor
  · rfl
  · intro hcon
    rw [show resultObjProp
        (evalFresh (arrayLiteralProg [.number (.fin 10 false)]) 100) "length"
        = some (.number (.fin 0 false)) from rfl] at hcon
    simp only [Option.some.injEq, JSValue.number.injEq, JSNum.fin.injEq] at hcon
    exact absurd hcon.1 (by norm_num)

/-- C1 (amended): evaluating an `n`-element array literal of literal
elements on a fresh engine (with fuel for the `3n + 2` dispatched
instructions, `n` within `usize` range) yields an Object record whose
stringified integer keys `"0" … "n-1"` hold the element values in
source order (each either the value itself or its `==`-equal interned
pool representative), and whose `length` own property is the Number 0 —
not the element count. -/
theorem array_literal_object_record :
    ∀ (lits : List Literal) (fuel : Nat),
      lits.length ≤ 2 ^ 64 →
      3 * lits.length + 2 ≤ fuel →
      ∃ (oid : Nat) (st : VMSt) (hfin : Heap),
        evalFresh (arrayLiteralProg lits) fuel = .ok (.object oid) st hfin ∧
        objGetOwn hfin oid "length" = some (.number (.fin 0 false)) ∧
        ∀ (i : Nat) (hi : i < lits.length),
          ∃ w, objGetOwn hfin oid (natDecimal i) = some w ∧
            (w = litValue (lits.get ⟨i, hi⟩) ∨
              rustEq w (litValue (lits.get ⟨i, hi⟩)) = true) := by
  intro lits fuel hbound hfuel
  obtain ⟨ch2, ws, hrun, hlen, hcodes, hconsts, hwslen, hwsrel, hEnc⟩ :=
    compileArrayElems_shape lits 0 ⟨[.newArray 0], []⟩
  have hEnc1 : EncodesElems ch2 1 0 ws := hEnc
  have hlen1 : ch2.code.length = 1 + 3 * lits.length := by simpa using hlen
  have hch : (⟨[], []⟩ : Chunk).emit (.newArray 0) = ⟨[.newArray 0], []⟩ := rfl
  have hcomp : compileProgram (arrayLiteralProg lits) = .ok ch2 := by
    simp only [compileProgram, arrayLiteralProg, compileStmts, compileStatement,
      compileExpression, hch, hrun, except_bind_ok, if_true]
    rfl
  have hc0 : ch2.code[0]? = some (.newArray 0) := hcodes 0 _ rfl
  have hc1end : ch2.code[1 + 3 * lits.length]? = none := by
    apply List.getElem?_eq_none
    omega
  have hstep0 : execute (3 * lits.length + 2) ch2 0 initSt initHeap
      = execute (3 * lits.length + 1) ch2 1 ⟨[.object 0], 0⟩
          ⟨[⟨[], none⟩],
            [⟨[("length", PropDesc.data (.number (.fin 0 false)))], none⟩]⟩ := by
    have harith : 3 * lits.length + 2 = (3 * lits.length + 1) + 1 := by omega
    rw [harith, execute_dispatch_step _ _ _ _ _ _ hc0 (by simp)]
    rfl
  have hfresh0 : ∀ m, 0 ≤ m → m < 0 + ws.length →
      alLookup [("length", PropDesc.data (.number (.fin 0 false)))]
        (natDecimal m) = none := by
    intro m _ _
    simp only [alLookup]
    rw [if_neg (fun hcon => natDecimal_ne_length m hcon.symm)]
  have hloop := run_array_elems ws 0 1 ch2 0 [] 0
      [("length", PropDesc.data (.number (.fin 0 false)))] none
      ⟨[⟨[], none⟩],
        [⟨[("length", PropDesc.data (.number (.fin 0 false)))], none⟩]⟩ 1
      hEnc1 (by rw [Nat.zero_add, hwslen]; exact hbound) rfl hfresh0
  rw [hwslen] at hloop
  have hfall : execute 1 ch2 (1 + 3 * lits.length) ⟨[.object 0], 0⟩
      (Heap.setObj
        ⟨[⟨[], none⟩],
          [⟨[("length", PropDesc.data (.number (.fin 0 false)))], none⟩]⟩ 0
        ⟨[("length", PropDesc.data (.number (.fin 0 false)))]
          ++ arrPropsW ws 0, none⟩)
      = .ok (.object 0) ⟨[], 0⟩
          ⟨[⟨[], none⟩],
            [⟨[("length", PropDesc.data (.number (.fin 0 false)))]
              ++ arrPropsW ws 0, none⟩]⟩ := by
    rw [show (1 : Nat) = 0 + 1 from rfl,
      execute_fallthrough 0 _ _ _ _ hc1end]
    rfl
  have hrunF : execute (3 * lits.length + 2) ch2 0 initSt initHeap
      = .ok (.object 0) ⟨[], 0⟩
          ⟨[⟨[], none⟩],
            [⟨[("length", PropDesc.data (.number (.fin 0 false)))]
              ++ arrPropsW ws 0, none⟩]⟩ := by
    rw [hstep0, hloop, hfall]
  have hne : execute (3 * lits.length + 2) ch2 0 initSt initHeap
      ≠ .timeout := by
    rw [hrunF]
    intro hcon
    cases hcon
  have hfull := execute_mono (3 * lits.length + 2) fuel hfuel ch2 0 initSt
    initHeap hne
  refine ⟨0, ⟨[], 0⟩,
    ⟨[⟨[], none⟩],
      [⟨[("length", PropDesc.data (.number (.fin 0 false)))]
        ++ arrPropsW ws 0, none⟩]⟩, ?_, ?_, ?_⟩
  · simp only [evalFresh, engineEval, hcomp]
    rw [hfull, hrunF]
  · have hget : objGetOwn
        (⟨[⟨[], none⟩],
          [⟨[("length", PropDesc.data (.number (.fin 0 false)))]
            ++ arrPropsW ws 0, none⟩]⟩ : Heap) 0 "length"
        = (alLookup ([("length", PropDesc.data (.number (.fin 0 false)))]
            ++ arrPropsW ws 0) "length").map (fun p => p.value) := rfl
    rw [hget, alLookup_append_of_some _ _ _ _
      (show alLookup [("length", PropDesc.data (.number (.fin 0 false)))]
        "length" = some (PropDesc.data (.number (.fin 0 false))) from rfl)]
    rfl
  · intro i hi
    have hiw : i < ws.length := by rw [hwslen]; exact hi
    refine ⟨ws.get ⟨i, hiw⟩, ?_, hwsrel i hi hiw⟩
    have hget2 : objGetOwn
        (⟨[⟨[], none⟩],
          [⟨[("length", PropDesc.data (.number (.fin 0 false)))]
            ++ arrPropsW ws 0, none⟩]⟩ : Heap) 0 (natDecimal i)
        = (alLookup ([("length", PropDesc.data (.number (.fin 0 false)))]
            ++ arrPropsW ws 0) (natDecimal i)).map (fun p => p.value) := rfl
    rw [hget2]
    have hpnone : alLookup
        [("length", PropDesc.data (.number (.fin 0 false)))]
        (natDecimal i) = none := by
      simp only [alLookup]
      rw [if_neg (fun hcon => natDecimal_ne_length i hcon.symm)]
    rw [alLookup_append_of_none _ _ _ hpnone]
    have hw := alLookup_arrPropsW ws 0 i hiw
    rw [Nat.zero_add] at hw
    rw [hw]
    rfl

/-- C1 witness: the amended theorem at the one-element literal `[10]`
with fuel 100. -/
theorem array_literal_object_record_witness :
    ∃ (oid : Nat) (st : VMSt) (hfin : Heap),
      evalFresh (arrayLiteralProg [.number (.fin 10 false)]) 100
        = .ok (.object oid) st hfin ∧
      objGetOwn hfin oid "length" = some (.number (.fin 0 false)) ∧
      ∀ (i : Nat) (hi : i < ([Literal.number (.fin 10 false)]).length),
        ∃ w, objGetOwn hfin oid (natDecimal i) = some w ∧
          (w = litValue (([Literal.number (.fin 10 false)]).get ⟨i, hi⟩) ∨
            rustEq w (litValue (([Literal.number (.fin 10 false)]).get ⟨i, hi⟩))
              = true) :=
  array_literal_object_record [.number (.fin 10 false)] 100
    (by norm_num) (by norm_num)
